import Mathlib

/-!
# Verification of the GQP core against its specification

Shallow embedding of the GQP core (schema graph, cursor, cursor manager,
validator, security manager, query executor, engine query routing) in Lean 4,
with theorems settling the specification claims.

JavaScript `Map` objects are modelled as association lists with
replace-in-place / append-at-end update (matching `Map.set` semantics), and
`Set` objects as insertion-ordered duplicate-free lists.  JavaScript numbers
appearing in the modelled code paths are integers; they are modelled as `Int`
(or `Nat` for sizes/timestamps).  Cursor ids (produced by `generateCursorId`,
which are unique non-empty strings) are modelled as freshly generated strings
`"cursor_" ++ n` driven by a counter in the manager state.
-/

namespace GQP

/-- A JSON-like value, the type of externally supplied parameters
(`unknown` on the TypeScript side). -/
inductive JVal where
  | null : JVal
  | bool : Bool → JVal
  | num : Int → JVal
  | str : String → JVal
  | arr : List JVal → JVal
  | obj : List (String × JVal) → JVal

/-- `QueryFilters` from `core/types.ts` (missing from the sources; modelled
from the spec: "a recursive mapping from field name (or logical keyword
AND/OR/NOT) to either a literal, an array, or a nested operator mapping").
A filters object is a JSON object, i.e. a list of key/value pairs. -/
abbrev QueryFilters := List (String × JVal)

/-- JS `Map.set`: replace the binding in place if the key is present,
otherwise append it at the end. -/
def mapSet (m : List (String × α)) (k : String) (v : α) : List (String × α) :=
  match m with
  | [] => [(k, v)]
  | (k', v') :: rest =>
      if k' = k then (k, v) :: rest else (k', v') :: mapSet rest k v

/-- JS `Set.add`: append the element if it is not already present
(insertion-ordered, duplicate-free). -/
def setAdd (s : List String) (x : String) : List String :=
  if x ∈ s then s else s ++ [x]

/-- Lookup in an association list (JS `Map.get`; first binding wins, and
maps built with `mapSet` have unique keys). -/
def mapGet (m : List (String × α)) (k : String) : Option α :=
  match m with
  | [] => none
  | (k', v) :: rest => if k' = k then some v else mapGet rest k

theorem mapGet_eq_none_of_not_mem_keys {m : List (String × α)} {k : String}
    (h : k ∉ m.map Prod.fst) : mapGet m k = none := by
  induction m with
  | nil => rfl
  | cons e rest ih =>
      obtain ⟨k', v⟩ := e
      simp only [List.map_cons, List.mem_cons, not_or] at h
      have hne : ¬ k' = k := fun he => h.1 he.symm
      simp only [mapGet, if_neg hne, ih h.2]

theorem mem_keys_of_mapGet_eq_some {m : List (String × α)} {k : String}
    {v : α} (h : mapGet m k = some v) : k ∈ m.map Prod.fst := by
  induction m with
  | nil => simp [mapGet] at h
  | cons e rest ih =>
      obtain ⟨k', v'⟩ := e
      by_cases he : k' = k
      · subst he; simp
      · simp only [mapGet, if_neg he] at h
        simp [ih h]

theorem filter_length_lt_of_imp {l : List α} {p q : α → Bool}
    (hmono : ∀ x, q x = true → p x = true) {a : α}
    (ha : a ∈ l) (hpa : p a = true) (hqa : ¬ q a = true) :
    (l.filter q).length < (l.filter p).length := by
  induction l with
  | nil => cases ha
  | cons x xs ih =>
      rcases List.mem_cons.mp ha with rfl | hmem
      · have hq : q a = false := Bool.eq_false_iff.mpr hqa
        have h1 : (xs.filter q).length ≤ (xs.filter p).length := by
          rw [← List.countP_eq_length_filter, ← List.countP_eq_length_filter]
          exact List.countP_mono_left (fun x _ hx => hmono x hx)
        simp only [List.filter_cons, hq, hpa]
        simpa using Nat.lt_succ_of_le h1
      · by_cases hqx : q x = true
        · have hpx := hmono x hqx
          simp only [List.filter_cons, hqx, hpx]
          simpa using ih hmem
        · have hq : q x = false := Bool.eq_false_iff.mpr hqx
          by_cases hpx : p x = true
          · simp only [List.filter_cons, hq, hpx]
            exact Nat.lt_succ_of_lt (ih hmem)
          · have hp : p x = false := Bool.eq_false_iff.mpr hpx
            simp only [List.filter_cons, hq, hp]
            exact ih hmem


/-- `GQPField` from `core/types.ts` (missing from the sources; modelled from
the spec: "name, type (one of a fixed primitive/enum tag set), nullable,
isList, directives"). Directives are kept as plain names. -/
structure GQPField where
  name : String
  type : String := "String"
  nullable : Bool := false
  isList : Bool := false
  directives : List String := []
deriving Repr, DecidableEq

/-- `GQPEdge` from `core/types.ts` (missing from the sources; modelled from
the spec: "name, target node name, relation kind (belongsTo | hasOne |
hasMany), optional foreign-key hint"). -/
structure GQPEdge where
  name : String
  «to» : String
  relation : String := "hasMany"
deriving Repr, DecidableEq

/-- `GQPNode` from `core/types.ts` (missing from the sources; modelled from
the spec §3: "name (unique key), optional description, ordered list of
Fields, ordered list of Edges, set of Capabilities, source identifier"). -/
structure GQPNode where
  name : String
  description : Option String := none
  fields : List GQPField := []
  edges : List GQPEdge := []
  capabilities : List String := []
  source : String := "db"
deriving Repr, DecidableEq

/-- State of a `GQPSchema` instance (`core/schema.ts`): the node map, the
root-name set and the adjacency index `edgeIndex`. -/
structure Schema where
  nodes : List (String × GQPNode) := []
  rootNodeNames : List String := []
  edgeIndex : List (String × List String) := []
deriving Repr, DecidableEq

namespace Schema

/-- `GQPSchema.getNode`. -/
def getNode (s : Schema) (name : String) : Option GQPNode :=
  mapGet s.nodes name

/-- The edge-index step inside `addNode`: ensure the source has an entry and
add the target to its set. -/
def indexEdge (ei : List (String × List String)) (src tgt : String) :
    List (String × List String) :=
  match mapGet ei src with
  | some ts => mapSet ei src (setAdd ts tgt)
  | none => mapSet ei src [tgt]

/-- `GQPSchema.addNode`. -/
def addNode (s : Schema) (node : GQPNode) (isRoot : Bool := true) : Schema :=
  { nodes := mapSet s.nodes node.name node
    rootNodeNames :=
      if isRoot then setAdd s.rootNodeNames node.name else s.rootNodeNames
    edgeIndex :=
      node.edges.foldl (fun ei e => indexEdge ei node.name e.«to») s.edgeIndex }

/-- Build a schema by a sequence of `addNode` calls (all roots, as
`GQP.initialize` does). -/
def ofNodes (ns : List GQPNode) : Schema :=
  ns.foldl (fun s n => s.addNode n) {}

/-- `GQPSchema.getRootNodes`. -/
def getRootNodes (s : Schema) : List GQPNode :=
  s.rootNodeNames.filterMap (fun n => s.getNode n)

/-- `GQPSchema.getNodeCount`. -/
def getNodeCount (s : Schema) : Nat := s.nodes.length

/-- Forward loop of `GQPSchema.getNeighbors`: walk the outgoing edge
targets, breaking once `limit` neighbors are collected. -/
def fwdLoop (s : Schema) (limit : Nat) :
    List String → List GQPNode → List GQPNode
  | [], acc => acc
  | t :: ts, acc =>
      if limit ≤ acc.length then acc
      else
        match s.getNode t with
        | some node => fwdLoop s limit ts (acc ++ [node])
        | none => fwdLoop s limit ts acc

/-- Reverse loop of `GQPSchema.getNeighbors`: walk the edge index entries,
adding sources whose targets contain `nodeName`, breaking at `limit`. -/
def revLoop (s : Schema) (limit : Nat) (nodeName : String) :
    List (String × List String) → List GQPNode → List GQPNode
  | [], acc => acc
  | (src, targets) :: rest, acc =>
      if limit ≤ acc.length then acc
      else
        if nodeName ∈ targets ∧ src ≠ nodeName then
          match s.getNode src with
          | some node =>
              if node ∈ acc then revLoop s limit nodeName rest acc
              else revLoop s limit nodeName rest (acc ++ [node])
          | none => revLoop s limit nodeName rest acc
        else revLoop s limit nodeName rest acc

/-- `GQPSchema.getNeighbors`. -/
def getNeighbors (s : Schema) (nodeName : String) (limit : Nat := 5) :
    List GQPNode :=
  match s.getNode nodeName with
  | none => []
  | some _ =>
      let edgeTargets := (mapGet s.edgeIndex nodeName).getD []
      let neighbors := fwdLoop s limit edgeTargets []
      (revLoop s limit nodeName s.edgeIndex neighbors).take limit

/-- Number of edge-index keys not yet visited; the primary component of the
BFS termination measure. -/
def unvisitedKeys (ei : List (String × List String)) (visited : List String) :
    Nat :=
  ((ei.map Prod.fst).filter (fun k => k ∉ visited)).length

theorem unvisitedKeys_cons_lt {ei : List (String × List String)}
    {visited : List String} {n : String} (hkey : n ∈ ei.map Prod.fst)
    (hvis : n ∉ visited) :
    unvisitedKeys ei (n :: visited) < unvisitedKeys ei visited := by
  unfold unvisitedKeys
  apply filter_length_lt_of_imp (a := n) ?_ hkey ?_ ?_
  · intro x hx
    simp only [decide_eq_true_eq] at hx ⊢
    intro hmem
    exact hx (List.mem_cons_of_mem _ hmem)
  · simpa using hvis
  · simp

theorem unvisitedKeys_cons_eq {ei : List (String × List String)}
    {visited : List String} {n : String} (hkey : n ∉ ei.map Prod.fst) :
    unvisitedKeys ei (n :: visited) = unvisitedKeys ei visited := by
  unfold unvisitedKeys
  congr 1
  apply List.filter_congr
  intro k hk
  have hne : k ≠ n := fun h => hkey (h ▸ hk)
  simp [hne]

/-- The `while` loop of `GQPSchema.findPath`: dequeue an entry, skip it when
its path is too long or its node was already visited, otherwise visit the
node and either return (a neighbor is the target) or enqueue all
neighbors. -/
def bfs (ei : List (String × List String)) (tgt : String) (maxDepth : Nat) :
    List (String × List String) → List String → Option (List String)
  | [], _ => none
  | (n, path) :: rest, visited =>
      if maxDepth < path.length then bfs ei tgt maxDepth rest visited
      else if n ∈ visited then bfs ei tgt maxDepth rest visited
      else
        let neighbors := (mapGet ei n).getD []
        if tgt ∈ neighbors then some (path ++ [tgt])
        else
          bfs ei tgt maxDepth
            (rest ++ neighbors.map (fun m => (m, path ++ [m]))) (n :: visited)
termination_by queue visited => (unvisitedKeys ei visited, queue.length)
decreasing_by
  · exact Prod.Lex.right _ (Nat.lt_succ_self _)
  · exact Prod.Lex.right _ (Nat.lt_succ_self _)
  · have hvis : n ∉ visited := by assumption
    by_cases hkey : n ∈ ei.map Prod.fst
    · exact Prod.Lex.left _ _ (unvisitedKeys_cons_lt hkey hvis)
    · rw [unvisitedKeys_cons_eq hkey]
      have hnone : mapGet ei n = none := mapGet_eq_none_of_not_mem_keys hkey
      refine Prod.Lex.right _ ?_
      simp [neighbors, hnone]

/-- `GQPSchema.findPath`. -/
def findPath (s : Schema) (fr tgt : String) (maxDepth : Nat := 4) :
    Option (List String) :=
  if fr = tgt then some [fr]
  else if ¬ (fr ∈ s.nodes.map Prod.fst) ∨ ¬ (tgt ∈ s.nodes.map Prod.fst) then
    none
  else bfs s.edgeIndex tgt maxDepth [(fr, [fr])] []

/-- `GQPSchema.getEdge`. -/
def getEdge (s : Schema) (fr tgt : String) : Option GQPEdge :=
  match s.getNode fr with
  | none => none
  | some node => node.edges.find? (fun e => e.«to» = tgt)

end Schema

/-- `GQPError` (`core/errors.ts`): machine-readable code plus the
developer-facing message; details are kept only where a claim needs them. -/
structure GQPError where
  code : String
  message : String := ""
deriving DecidableEq, Repr

-- `createError` helpers from `core/errors.ts` (only construction data that
-- the modelled code paths inspect).
namespace createError

def nodeNotFound (node : String) : GQPError :=
  { code := "NODE_NOT_FOUND", message := "Node " ++ node ++ " not found" }

def nodeRequired (action : String) : GQPError :=
  { code := "NODE_REQUIRED", message := "Node name is required for action: " ++ action }

def invalidAction (action : String) : GQPError :=
  { code := "INVALID_ACTION", message := "Invalid action: " ++ action }

def invalidNode (node : String) (pattern : String) : GQPError :=
  { code := "INVALID_NODE"
    message := "Invalid node name: " ++ node ++ ". Must match pattern: " ++ pattern }

def validation (field : String) (message : String) : GQPError :=
  { code := "VALIDATION_ERROR", message := field ++ " " ++ message }

def adapterNotFound (node : String) : GQPError :=
  { code := "ADAPTER_NOT_FOUND", message := "No adapter found for node: " ++ node }

def accessDenied (node : String) (action : String) : GQPError :=
  { code := "ACCESS_DENIED", message := "Access denied to " ++ node ++ " for " ++ action }

def introspectionDisabled : GQPError :=
  { code := "INTROSPECTION_DISABLED", message := "Schema introspection is disabled" }

def timeout (operation : String) : GQPError :=
  { code := "TIMEOUT_ERROR", message := "Operation " ++ operation ++ " timed out" }

def authorizationError (message : String) : GQPError :=
  { code := "AUTHORIZATION_ERROR", message := message }

end createError

/-- The state record held by a `GQPGraphCursor` (`core/cursor.ts`), including
the `metadata` fields. The `id` is the generated cursor id. -/
structure CursorState where
  id : String
  currentNode : Option String
  neighbors : List String
  path : List String
  depth : Int
  createdAt : Nat
  totalNodes : Nat
  exploredNodes : Nat
deriving DecidableEq, Repr

namespace Cursor

/-- JS truthiness of an optional string (`startNode || null`, `if (name)`):
`""`, `null` and `undefined` are all falsy. -/
def truthy : Option String → Option String
  | none => none
  | some s => if s = "" then none else some s

/-- `GQPGraphCursor.updateNeighbors`: note the truthiness test on
`currentNode`, so a current node named `""` takes the root branch. -/
def updateNeighbors (s : Schema) (c : CursorState) : CursorState :=
  match truthy c.currentNode with
  | none => { c with neighbors := (s.getRootNodes).map (fun n => n.name) }
  | some cur =>
      { c with neighbors := (s.getNeighbors cur 5).map (fun n => n.name) }

/-- The `GQPGraphCursor` constructor. `id` and `now` stand for the generated
cursor id and `Date.now()`. -/
def mk (s : Schema) (startNode : Option String) (id : String) (now : Nat)
    (maxPathLength : Nat := 100) : CursorState :=
  let _ := maxPathLength
  let start := truthy startNode
  let c : CursorState :=
    { id := id
      currentNode := start
      neighbors := []
      path := match start with | some n => [n] | none => []
      depth := match start with | some _ => 0 | none => -1
      createdAt := now
      totalNodes := s.getNodeCount
      exploredNodes := match start with | some _ => 1 | none => 0 }
  match start with
  | some _ => updateNeighbors s c
  | none => c

/-- `GQPGraphCursor.navigateTo`. Fails with NODE_NOT_FOUND when the name is
not registered; otherwise sets `depth` to the *old* path length, applies the
sliding window (`shift` when the path is full), pushes the name, and
recomputes `exploredNodes` as the number of distinct names in the path. -/
def navigateTo (s : Schema) (maxPathLength : Nat) (c : CursorState)
    (nodeName : String) : Except GQPError CursorState :=
  match s.getNode nodeName with
  | none => .error (createError.nodeNotFound nodeName)
  | some _ =>
      let depth' : Int := (c.path.length : Int)
      let path' :=
        (if maxPathLength ≤ c.path.length then c.path.tail else c.path) ++
          [nodeName]
      let c' := { c with
        currentNode := some nodeName
        depth := depth'
        path := path'
        exploredNodes := path'.dedup.length }
      .ok (updateNeighbors s c')

/-- `GQPGraphCursor.goBack`: `none` (and unchanged state) when the path has
at most one entry; otherwise pop, reposition on the new last entry
(`previousNode || null`), and decrement `depth` (floored at 0).
`metadata.exploredNodes` is left untouched. -/
def goBack (s : Schema) (c : CursorState) : Option CursorState :=
  if c.path.length ≤ 1 then none
  else
    let path' := c.path.dropLast
    let c' := { c with
      currentNode := truthy path'.getLast?
      path := path'
      depth := max 0 (c.depth - 1) }
    some (updateNeighbors s c')

/-- `GQPGraphCursor.reset`. -/
def reset (c : CursorState) : CursorState :=
  { c with currentNode := none, neighbors := [], path := [], depth := -1
           exploredNodes := 0 }

end Cursor

/-- State of a `CursorManager` (`core/cursor.ts`): the cursor pool plus a
counter driving fresh id generation (modelling `generateCursorId`, which
produces unique non-empty strings). -/
structure ManagerState where
  cursors : List (String × CursorState) := []
  nextId : Nat := 0
deriving DecidableEq, Repr

/-- Configuration of a `CursorManager`. -/
structure ManagerConfig where
  maxCursors : Nat := 100
  cursorTTL : Nat := 30 * 60 * 1000
  maxPathLength : Nat := 100
deriving DecidableEq, Repr

namespace Manager

/-- The generated id of the `n`-th cursor (modelling `generateCursorId`). -/
def genId (n : Nat) : String := "cursor_" ++ toString n

/-- `CursorManager.isExpired`. -/
def isExpired (cfg : ManagerConfig) (now : Nat) (c : CursorState) : Bool :=
  cfg.cursorTTL < now - c.createdAt

/-- `CursorManager.evictExpired`: remove every cursor whose age exceeds the
TTL. -/
def evictExpired (cfg : ManagerConfig) (m : ManagerState) (now : Nat) :
    ManagerState :=
  { m with cursors :=
      m.cursors.filter (fun e => ¬ isExpired cfg now e.2) }

/-- The accumulator step of the `evictOldest` scan: remember the id and
timestamp of the earliest-created cursor seen so far (strict `<`, so the
first minimal entry wins ties). -/
def oldestStep (acc : Option (String × Nat)) (e : String × CursorState) :
    Option (String × Nat) :=
  match acc with
  | none => some (e.1, e.2.createdAt)
  | some a =>
      if e.2.createdAt < a.2 then some (e.1, e.2.createdAt) else some a

/-- `CursorManager.evictOldest`: delete the first entry holding the minimal
`createdAt` (ties broken by iteration order, strict `<` updates; the final
`if (oldestId)` truthiness test skips an empty-string id). -/
def evictOldest (m : ManagerState) : ManagerState :=
  let oldest := m.cursors.foldl oldestStep none
  match oldest with
  | none => m
  | some (oid, _) =>
      if oid = "" then m
      else { m with cursors := m.cursors.filter (fun e => e.1 ≠ oid) }

/-- `CursorManager.create`: sweep expired cursors, evict the oldest when
still at capacity, then construct and register a new cursor. -/
def create (cfg : ManagerConfig) (s : Schema) (m : ManagerState)
    (startNode : Option String) (now : Nat) : ManagerState × CursorState :=
  let m1 := evictExpired cfg m now
  let m2 := if cfg.maxCursors ≤ m1.cursors.length then evictOldest m1 else m1
  let c := Cursor.mk s startNode (genId m2.nextId) now cfg.maxPathLength
  ({ cursors := mapSet m2.cursors c.id c, nextId := m2.nextId + 1 }, c)

/-- `CursorManager.get`: lazily expire (delete and return absent) or return
the live cursor. -/
def get (cfg : ManagerConfig) (m : ManagerState) (id : String) (now : Nat) :
    ManagerState × Option CursorState :=
  match mapGet m.cursors id with
  | none => (m, none)
  | some c =>
      if isExpired cfg now c then
        ({ m with cursors := m.cursors.filter (fun e => e.1 ≠ id) }, none)
      else (m, some c)

/-- `CursorManager.size`. -/
def size (m : ManagerState) : Nat := m.cursors.length

/-- `CursorManager.getOrCreate` (note the truthiness test on the id). -/
def getOrCreate (cfg : ManagerConfig) (s : Schema) (m : ManagerState)
    (id : Option String) (startNode : Option String) (now : Nat) :
    ManagerState × CursorState :=
  match Cursor.truthy id with
  | some i =>
      match get cfg m i now with
      | (m1, some c) => (m1, c)
      | (m1, none) => create cfg s m1 startNode now
  | none => create cfg s m startNode now

end Manager

/-- `ValidationConfig` merged with its defaults (`core/validation.ts`,
`DEFAULT_VALIDATION`). The node-name pattern is fixed to the default
`^[a-zA-Z_][a-zA-Z0-9_]*$`. -/
structure ValidationConfig where
  strictNodeNames : Bool := true
  allowedFilterOperators : List String :=
    ["equals", "not", "in", "notIn", "lt", "lte", "gt", "gte",
     "contains", "startsWith", "endsWith", "mode", "search"]
  maxArrayInFilter : Nat := 100
  maxFilterDepth : Nat := 5
  maxQueryLength : Nat := 1000
deriving DecidableEq, Repr

/-- `LimitsConfig` merged with its defaults (`DEFAULT_LIMITS`). -/
structure LimitsConfig where
  maxLimit : Int := 100
  defaultLimit : Int := 10
  maxOffset : Int := 10000
  maxIncludeDepth : Nat := 3
  maxCursors : Nat := 100
  cursorTTL : Nat := 30 * 60 * 1000
  maxCursorPathLength : Nat := 100
  timeout : Nat := 30000
deriving DecidableEq, Repr

/-- The default node-name pattern `/^[a-zA-Z_][a-zA-Z0-9_]*$/` as a predicate
on characters of the candidate string. -/
def isIdentChar (first : Bool) (ch : Char) : Bool :=
  ch.isAlpha ∨ ch = '_' ∨ (¬ first ∧ ch.isDigit)

/-- Test of the default node-name pattern. -/
def matchesIdentPattern (s : String) : Bool :=
  match s.data with
  | [] => false
  | ch :: rest => isIdentChar true ch ∧ rest.all (isIdentChar false)

/-- `QueryOptions` after normalization (`core/types.ts` is missing from the
sources; modelled from the spec: "limit, offset, orderBy {field, direction},
include (dotted relation paths, depth-bounded), optional cursor id"). -/
structure QueryOptions where
  limit : Option Int := none
  offset : Option Int := none
  orderBy : Option (String × String) := none
  «include» : Option (List String) := none
deriving DecidableEq, Repr

/-- Validated `ToolCallParams`. -/
structure ToolCallParams where
  action : String
  node : Option String := none
  query : Option String := none
  filters : Option QueryFilters := none
  options : Option QueryOptions := none
  cursorId : Option String := none

namespace Validator

/-- `Validator.validateNodeName`. -/
def validateNodeName (cfg : ValidationConfig) (node : Option JVal) :
    Except GQPError String :=
  match node with
  | none => .error (createError.nodeRequired "navigate/query")
  | some .null => .error (createError.nodeRequired "navigate/query")
  | some (.str s) =>
      let trimmed := s.trim
      if trimmed = "" then .error (createError.nodeRequired "navigate/query")
      else if cfg.strictNodeNames ∧ ¬ matchesIdentPattern trimmed then
        .error (createError.invalidNode trimmed "^[a-zA-Z_][a-zA-Z0-9_]*$")
      else .ok trimmed
  | some _ => .error (createError.validation "node" "must be a string")

/-- `Validator.validateAction`. Note the JS truthiness test `!action`: the
empty string is rejected by the first branch. -/
def validateAction (action : Option JVal) : Except GQPError String :=
  match action with
  | some (.str a) =>
      if a = "" then
        .error (createError.validation "action" "is required and must be a string")
      else if a ∈ ["explore", "navigate", "query", "introspect"] then .ok a
      else .error (createError.invalidAction a)
  | _ => .error (createError.validation "action" "is required and must be a string")

/-- JS `Number(x)` on the values that can reach `validateOptions` /
`normalizeOptions`, restricted to integral numbers (fractional and
non-primitive coercions are outside this model): `none` stands for NaN. -/
def jsNumber : JVal → Option Int
  | .null => some 0
  | .bool b => some (if b then 1 else 0)
  | .num n => some n
  | .str s => s.toInt?
  | .arr _ => none
  | .obj _ => none

/-- `Validator.validateOptions` (soft-normalize; never throws). The raw
options object is a JSON object; absent keys are `undefined`. -/
def validateOptions (limits : LimitsConfig) (options : List (String × JVal)) :
    QueryOptions :=
  let limit :=
    match mapGet options "limit" with
    | none => limits.defaultLimit
    | some v =>
        match jsNumber v with
        | none => limits.defaultLimit
        | some l => if l < 1 then limits.defaultLimit else min l limits.maxLimit
  let offset :=
    match mapGet options "offset" with
    | none => 0
    | some v =>
        match jsNumber v with
        | none => 0
        | some o => if o < 0 then 0 else min o limits.maxOffset
  let incl :=
    match mapGet options "include" with
    | some (.arr xs) =>
        some ((xs.filterMap (fun v => match v with
            | .str s => some s
            | _ => none)).map (fun inc =>
          let parts := inc.splitOn "."
          if limits.maxIncludeDepth < parts.length then
            String.intercalate "." (parts.take limits.maxIncludeDepth)
          else inc))
    | _ => none
  let orderBy :=
    match mapGet options "orderBy" with
    | some (.obj fields) =>
        match mapGet fields "field", mapGet fields "direction" with
        | some (.str f), some (.str d) =>
            if d = "asc" ∨ d = "desc" then some (f, d) else none
        | _, _ => none
    | _ => none
  { limit := some limit, offset := some offset
    orderBy := orderBy, «include» := incl }

/-- `Validator.validateQuery`. -/
def validateQuery (cfg : ValidationConfig) (query : JVal) :
    Except GQPError (Option String) :=
  match query with
  | .null => .ok none
  | .str s =>
      if cfg.maxQueryLength < s.length then
        .error (createError.validation "query"
          ("exceeds maximum length of " ++ toString cfg.maxQueryLength))
      else .ok (some s)
  | _ => .error (createError.validation "query" "must be a string")

/-- The validation error signalling excessive filter depth. -/
def depthError (cfg : ValidationConfig) : GQPError :=
  createError.validation "filters"
    ("exceeds maximum depth of " ++ toString cfg.maxFilterDepth)

/-- The validation error signalling an oversized array at `path`. -/
def arrayError (cfg : ValidationConfig) (path : String) : GQPError :=
  createError.validation path
    ("array exceeds maximum length of " ++ toString cfg.maxArrayInFilter)

/-- `Object.entries` of a JS array: index keys paired with elements. -/
def jsObjectEntries (xs : List JVal) : List (String × JVal) :=
  xs.enum.map (fun e => (toString e.1, e.2))

mutual

/-- Size of a JSON value ignoring strings, used as the termination measure
for filter validation. -/
def JVal.fsize : JVal → Nat
  | .arr xs => 1 + fsizeList xs
  | .obj fs => 1 + fsizeEntries fs
  | .null => 1
  | .bool _ => 1
  | .num _ => 1
  | .str _ => 1

def fsizeList : List JVal → Nat
  | [] => 0
  | v :: rest => JVal.fsize v + 1 + fsizeList rest

def fsizeEntries : List (String × JVal) → Nat
  | [] => 0
  | e :: rest => JVal.fsize e.2 + 1 + fsizeEntries rest

end

theorem fsizeEntries_map_snd (l : List (Nat × JVal)) :
    fsizeEntries (l.map (fun e => (toString e.1, e.2))) =
      fsizeList (l.map Prod.snd) := by
  induction l with
  | nil => rfl
  | cons e rest ih => simp [fsizeEntries, fsizeList, ih]

theorem fsizeEntries_jsObjectEntries (xs : List JVal) :
    fsizeEntries (jsObjectEntries xs) = fsizeList xs := by
  unfold jsObjectEntries
  rw [fsizeEntries_map_snd, List.enum_map_snd]

mutual

/-- `Validator.validateFilters`. The depth check fires only when the call is
entered with `depth` above the bound; note that nested (non-logical) objects
are delegated to `validateNestedFilter` at the *same* depth. -/
def validateFilters (cfg : ValidationConfig) (filters : JVal) (depth : Nat) :
    Except GQPError QueryFilters :=
  match filters with
  | .null => .ok []
  | .obj fields =>
      if cfg.maxFilterDepth < depth then .error (depthError cfg)
      else validateFiltersEntries cfg fields depth
  | _ => .error (createError.validation "filters" "must be an object")
termination_by JVal.fsize filters
decreasing_by
  all_goals
    simp only [JVal.fsize, fsizeEntries, fsizeList, fsizeEntries_jsObjectEntries]
  all_goals omega

/-- The `for (const [key, value] of Object.entries(filterObj))` loop body of
`validateFilters`. -/
def validateFiltersEntries (cfg : ValidationConfig)
    (fields : List (String × JVal)) (depth : Nat) :
    Except GQPError QueryFilters :=
  match fields with
  | [] => .ok []
  | (key, value) :: rest =>
      if cfg.strictNodeNames ∧ ¬ matchesIdentPattern key ∧
          key ∉ ["AND", "OR", "NOT"] then
        validateFiltersEntries cfg rest depth
      else
        match value with
        | .arr xs =>
            if cfg.maxArrayInFilter < xs.length then
              .error (arrayError cfg ("filters." ++ key))
            else do
              let tail ← validateFiltersEntries cfg rest depth
              .ok ((key, .arr xs) :: tail)
        | .obj sub => do
            let v ← validateNestedFilter cfg key sub depth
            let tail ← validateFiltersEntries cfg rest depth
            .ok ((key, .obj v) :: tail)
        | prim => do
            let tail ← validateFiltersEntries cfg rest depth
            .ok ((key, prim) :: tail)
termination_by fsizeEntries fields
decreasing_by
  all_goals
    simp only [JVal.fsize, fsizeEntries, fsizeList, fsizeEntries_jsObjectEntries]
  all_goals omega

/-- `Validator.validateNestedFilter`. Operator values are kept raw (after an
array-length check); `AND`/`OR`/`NOT` recurse into `validateFilters` at
`depth + 1`; other object values (JS arrays included, via their index keys)
recurse into `validateNestedFilter` at `depth + 1`. -/
def validateNestedFilter (cfg : ValidationConfig) (parentKey : String)
    (filter : List (String × JVal)) (depth : Nat) :
    Except GQPError (List (String × JVal)) :=
  match filter with
  | [] => .ok []
  | (op, value) :: rest =>
      if op ∈ cfg.allowedFilterOperators then
        match value with
        | .arr xs =>
            if cfg.maxArrayInFilter < xs.length then
              .error (arrayError cfg ("filters." ++ parentKey ++ "." ++ op))
            else do
              let tail ← validateNestedFilter cfg parentKey rest depth
              .ok ((op, .arr xs) :: tail)
        | v => do
            let tail ← validateNestedFilter cfg parentKey rest depth
            .ok ((op, v) :: tail)
      else if op ∈ ["AND", "OR", "NOT"] then
        match value with
        | .arr xs => do
            let vs ← validateFiltersList cfg xs depth
            let tail ← validateNestedFilter cfg parentKey rest depth
            .ok ((op, .arr vs) :: tail)
        | v => do
            let v' ← validateFilters cfg v (depth + 1)
            let tail ← validateNestedFilter cfg parentKey rest depth
            .ok ((op, .obj v') :: tail)
      else
        match value with
        | .obj sub => do
            let v' ← validateNestedFilter cfg (parentKey ++ "." ++ op) sub
              (depth + 1)
            let tail ← validateNestedFilter cfg parentKey rest depth
            .ok ((op, .obj v') :: tail)
        | .arr xs => do
            let v' ← validateNestedFilter cfg (parentKey ++ "." ++ op)
              (jsObjectEntries xs) (depth + 1)
            let tail ← validateNestedFilter cfg parentKey rest depth
            .ok ((op, .obj v') :: tail)
        | prim => do
            let tail ← validateNestedFilter cfg parentKey rest depth
            .ok ((op, prim) :: tail)
termination_by fsizeEntries filter
decreasing_by
  all_goals
    simp only [JVal.fsize, fsizeEntries, fsizeList, fsizeEntries_jsObjectEntries]
  all_goals omega

/-- The `value.map((v) => this.validateFilters(v, depth + 1))` call on a
logical operator whose value is an array. -/
def validateFiltersList (cfg : ValidationConfig) (xs : List JVal)
    (depth : Nat) : Except GQPError (List JVal) :=
  match xs with
  | [] => .ok []
  | v :: rest => do
      let v' ← validateFilters cfg v (depth + 1)
      let tail ← validateFiltersList cfg rest depth
      .ok (.obj v' :: tail)
termination_by fsizeList xs
decreasing_by
  all_goals
    simp only [JVal.fsize, fsizeEntries, fsizeList, fsizeEntries_jsObjectEntries]
  all_goals omega

end

/-- `Validator.validateCursorId`. -/
def validateCursorId (cursorId : JVal) : Except GQPError (Option String) :=
  match cursorId with
  | .null => .ok none
  | .str s => .ok (some s)
  | _ => .error (createError.validation "cursorId" "must be a string")

/-- `Validator.validateToolCallParams`. -/
def validateToolCallParams (cfg : ValidationConfig) (limits : LimitsConfig)
    (params : JVal) : Except GQPError ToolCallParams :=
  match params with
  | .obj p => do
      let action ← validateAction (mapGet p "action")
      let node ←
        if action = "navigate" ∨ action = "query" then do
          let n ← validateNodeName cfg (mapGet p "node")
          pure (some n)
        else
          match mapGet p "node" with
          | none => pure none
          | some nv => do
              let n ← validateNodeName cfg (some nv)
              pure (some n)
      let query ←
        match mapGet p "query" with
        | none => pure none
        | some qv => validateQuery cfg qv
      let filters ←
        match mapGet p "filters" with
        | none => pure none
        | some fv => do
            let f ← validateFilters cfg fv 0
            pure (some f)
      let options :=
        match mapGet p "options" with
        | none => none
        | some (.obj o) => some (validateOptions limits o)
        | some _ => some (validateOptions limits [])
      let cursorId ←
        match mapGet p "cursorId" with
        | none => pure none
        | some cv => validateCursorId cv
      .ok { action := action, node := node, query := query,
            filters := filters, options := options, cursorId := cursorId }
  | _ => .error (createError.validation "params" "must be an object")

end Validator

/-- `SecurityContext` (`core/security.ts`). Custom claims are omitted 
(no modelled code path reads them). -/
structure SecurityContext where
  userId : Option String := none
  orgId : Option String := none
  roles : Option (List String) := none
deriving DecidableEq, Repr

/-- `NodeAccessRule` (`core/security.ts`). The custom check is a pure
predicate over the context (`Promise` resolution is immaterial here). -/
structure NodeAccessRule where
  roles : Option (List String) := none
  actions : Option (List String) := none
  check : Option (SecurityContext → Bool) := none

/-- `IntrospectionMode` (`core/security.ts`). -/
inductive IntrospectionMode where
  | public : IntrospectionMode
  | authenticated : IntrospectionMode
  | disabled : IntrospectionMode
  | custom : (SecurityContext → Bool) → IntrospectionMode

/-- `SecurityConfig` (`core/security.ts`). The context provider either
yields a context or fails (a thrown provider maps to AUTHORIZATION_ERROR);
RLS rules map a context to filters. -/
structure SecurityConfig where
  context : Option (Except GQPError SecurityContext) := none
  nodeAccess : Option (List (String × NodeAccessRule)) := none
  rowLevelSecurity : Option (List (String × (SecurityContext → QueryFilters))) := none
  introspection : Option IntrospectionMode := none
  hiddenFields : Option (List String) := none
  hiddenNodes : Option (List String) := none

namespace Security

/-- `SecurityManager.isEnabled`: truthiness of the four access-control
configuration fields; `hiddenFields`/`hiddenNodes` play no part. -/
def isEnabled (cfg : SecurityConfig) : Bool :=
  cfg.context.isSome ∨ cfg.nodeAccess.isSome ∨
    cfg.rowLevelSecurity.isSome ∨ cfg.introspection.isSome

/-- `SecurityManager.getContext`: the default (empty) context when no
provider is configured. -/
def getContext (cfg : SecurityConfig) : Except GQPError SecurityContext :=
  match cfg.context with
  | none => .ok {}
  | some r =>
      match r with
      | .ok ctx => .ok ctx
      | .error _ =>
          .error (createError.authorizationError
            "Failed to resolve security context")

/-- Resolve the explicit context argument or fall back to `getContext`. -/
def resolveContext (cfg : SecurityConfig) (ctx : Option SecurityContext) :
    Except GQPError SecurityContext :=
  match ctx with
  | some c => .ok c
  | none => getContext cfg

/-- `SecurityManager.checkNodeAccess`. -/
def checkNodeAccess (cfg : SecurityConfig) (node action : String)
    (ctx : Option SecurityContext) : Except GQPError Unit := do
  let context ← resolveContext cfg ctx
  let rule :=
    match cfg.nodeAccess with
    | none => none
    | some rules =>
        match mapGet rules node with
        | some r => some r
        | none => mapGet rules "*"
  match rule with
  | none => .ok ()
  | some r => do
      match r.roles with
      | some required =>
          if required.length ≠ 0 then
            let userRoles := context.roles.getD []
            if required.any (fun role => role ∈ userRoles) then pure ()
            else throw (createError.accessDenied node action)
          else pure ()
      | none => pure ()
      match r.actions with
      | some allowed =>
          if allowed.length ≠ 0 then
            if action ∈ allowed then pure ()
            else throw (createError.accessDenied node action)
          else pure ()
      | none => pure ()
      match r.check with
      | some chk =>
          if chk context then pure ()
          else throw (createError.accessDenied node action)
      | none => pure ()

/-- `SecurityManager.getRLSFilters`. -/
def getRLSFilters (cfg : SecurityConfig) (node : String)
    (ctx : Option SecurityContext) : Except GQPError QueryFilters := do
  let context ← resolveContext cfg ctx
  let rlsFn :=
    match cfg.rowLevelSecurity with
    | none => none
    | some rules =>
        match mapGet rules node with
        | some f => some f
        | none => mapGet rules "*"
  match rlsFn with
  | none => .ok []
  | some f => .ok (f context)

/-- `SecurityManager.applyRLS`: AND-combine RLS filters with the caller's
filters, preferring whichever side is non-empty. -/
def applyRLS (cfg : SecurityConfig) (node : String) (filters : QueryFilters)
    (ctx : Option SecurityContext) : Except GQPError QueryFilters := do
  let rlsFilters ← getRLSFilters cfg node ctx
  if rlsFilters.length = 0 then .ok filters
  else if filters.length = 0 then .ok rlsFilters
  else .ok [("AND", .arr [.obj filters, .obj rlsFilters])]

/-- `SecurityManager.checkIntrospectionAccess`. -/
def checkIntrospectionAccess (cfg : SecurityConfig)
    (ctx : Option SecurityContext) : Except GQPError Unit :=
  let mode := cfg.introspection.getD .public
  match mode with
  | .public => .ok ()
  | .disabled => do
      let _ ← resolveContext cfg ctx
      throw createError.introspectionDisabled
  | .authenticated => do
      let context ← resolveContext cfg ctx
      match context.userId with
      | some uid =>
          if uid = "" then
            throw (createError.authorizationError
              "Authentication required for schema introspection")
          else pure ()
      | none =>
          throw (createError.authorizationError
            "Authentication required for schema introspection")
  | .custom f => do
      let context ← resolveContext cfg ctx
      if f context then pure () else throw createError.introspectionDisabled

/-- `SecurityManager.matchPattern`: exact (case-sensitive) match, else a
case-insensitive `*`-glob. -/
def globSegsMatch : List (List Char) → List Char → Bool
  | [], rest => rest.isEmpty
  | seg :: more, rest =>
      ((rest.take seg.length == seg) && globSegsMatch more (rest.drop seg.length)) ||
        (match rest with
          | [] => false
          | _ :: rs => globSegsMatch (seg :: more) rs)
termination_by segs rest => segs.length + rest.length
decreasing_by
  · simp only [List.length_cons, List.length_drop]
    omega
  · simp only [List.length_cons]
    omega

def matchPattern (name pattern : String) : Bool :=
  if pattern = name then true
  else if ¬ (pattern.contains '*') then false
  else globSegsMatch (((pattern.toLower).splitOn "*").map String.data)
    name.toLower.data

/-- `SecurityManager.isFieldHidden`. -/
def isFieldHidden (cfg : SecurityConfig) (fieldName : String) : Bool :=
  (cfg.hiddenFields.getD []).any (fun p => matchPattern fieldName p)

/-- `SecurityManager.isNodeHidden`. -/
def isNodeHidden (cfg : SecurityConfig) (nodeName : String) : Bool :=
  nodeName ∈ cfg.hiddenNodes.getD []

/-- `SecurityManager.filterHiddenFields`. -/
def filterHiddenFields (cfg : SecurityConfig) (node : GQPNode) : GQPNode :=
  match cfg.hiddenFields with
  | none => node
  | some [] => node
  | some _ =>
      { node with fields :=
          node.fields.filter (fun f => ¬ isFieldHidden cfg f.name) }

end Security

/-- `ExecutorConfig` (`core/executor.ts`) merged with its defaults. -/
structure ExecutorConfig where
  defaultLimit : Int := 10
  maxLimit : Int := 100
  timeout : Nat := 30000
  maxIncludeDepth : Nat := 3
deriving DecidableEq, Repr

/-- Options after `QueryExecutor.normalizeOptions` (all fields set). -/
structure NormalizedOptions where
  limit : Int
  offset : Int
  orderBy : Option (String × String)
  «include» : List String
deriving DecidableEq, Repr

/-- The shape of a `QueryResult` (`meta.total` / `executionTimeMs` are
external to this model). -/
structure QueryResultModel where
  data : List JVal
  hasMore : Bool
  nextActions : List String

namespace Executor

/-- `QueryExecutor.normalizeOptions`. Unlike the validator this clamps the
limit to `[1, maxLimit]` via a positivity test and takes any non-negative
offset; `include` defaults to the empty list. Note the truthiness test on
`maxIncludeDepth` (0 disables truncation). -/
def normalizeOptions (cfg : ExecutorConfig) (options : QueryOptions) :
    NormalizedOptions :=
  let limit :=
    match options.limit with
    | none => cfg.defaultLimit
    | some l => if 0 < l then min l cfg.maxLimit else cfg.defaultLimit
  let offset :=
    match options.offset with
    | none => 0
    | some o => if 0 ≤ o then o else 0
  let incl :=
    match options.«include» with
    | none => []
    | some paths =>
        if cfg.maxIncludeDepth ≠ 0 then
          paths.map (fun inc =>
            let parts := inc.splitOn "."
            if cfg.maxIncludeDepth < parts.length then
              String.intercalate "." (parts.take cfg.maxIncludeDepth)
            else inc)
        else paths
  { limit := limit, offset := offset, orderBy := options.orderBy
    «include» := incl }

/-- `QueryExecutor.suggestNextActions`. The "Add filters" hint is keyed to
the *configured default limit*, not to the requested one. -/
def suggestNextActions (cfg : ExecutorConfig) (node : GQPNode)
    (results : List JVal) : List String :=
  if results.length = 0 then
    ["Try a different query or filter", "Navigate to a related node"]
  else
    (node.edges.take 2).map
        (fun e => "Navigate to " ++ e.«to» ++ " to see related data") ++
      (if cfg.defaultLimit ≤ (results.length : Int) then
        ["Add filters to narrow down results"]
      else [])

/-- `QueryExecutor.execute`. The adapter dispatch (under the timeout race)
is abstracted by `adapterOutcome`: either the resolved result array or the
error the awaited call rejected with (a TIMEOUT error when the timer fired
first). Post-query plugin hooks are the result-array transformations
`postQuery`, applied in registration order. Pre-query/translate hooks only
rewrite the filters handed to the adapter, which the abstraction absorbs;
`adapter.count` failures never propagate (`total` is not modelled). -/
def execute (cfg : ExecutorConfig) (s : Schema)
    (adapterSources : List String) (postQuery : List (List JVal → List JVal))
    (nodeName : String) (options : QueryOptions)
    (adapterOutcome : Except GQPError (List JVal)) :
    Except GQPError QueryResultModel := do
  match s.getNode nodeName with
  | none => throw (createError.nodeNotFound nodeName)
  | some node =>
      if node.source ∉ adapterSources then
        throw (createError.adapterNotFound nodeName)
      else do
        let normalized := normalizeOptions cfg options
        let raw ← adapterOutcome
        let results := postQuery.foldl (fun r h => h r) raw
        .ok { data := results
              hasMore := (results.length : Int) = normalized.limit
              nextActions := suggestNextActions cfg node results }

end Executor

/-- The executor invocation dispatched by `GQP.query`: `executeWithSearch`
when a (truthy) query string is present, plain `execute` otherwise. -/
inductive ExecCall where
  | search (node : String) (query : String) (filters : QueryFilters)
      (options : Option QueryOptions) : ExecCall
  | plain (node : String) (filters : QueryFilters)
      (options : Option QueryOptions) : ExecCall

namespace Engine

/-- The `query` action of `GQP.handleToolCall` (`core/engine.ts`,
`GQP.query`), modelled up to the executor boundary: it returns the mutated
cursor-pool state together with either an error or the executor call it
dispatches. A supplied cursor id is looked up with `CursorManager.get`; a
live cursor positioned elsewhere is repositioned with `navigateTo`; an
unknown or expired id is ignored. -/
def queryStep (s : Schema) (mcfg : ManagerConfig) (cm : ManagerState)
    (nodeName : String) (query : Option String) (filters : QueryFilters)
    (options : Option QueryOptions) (cursorId : Option String) (now : Nat) :
    ManagerState × Except GQPError ExecCall :=
  match s.getNode nodeName with
  | none => (cm, .error (createError.nodeNotFound nodeName))
  | some _ =>
      let step : ManagerState × Option GQPError :=
        match Cursor.truthy cursorId with
        | none => (cm, none)
        | some cid =>
            let (cm1, got) := Manager.get mcfg cm cid now
            match got with
            | none => (cm1, none)
            | some cur =>
                if cur.currentNode ≠ some nodeName then
                  match Cursor.navigateTo s mcfg.maxPathLength cur nodeName with
                  | .ok cur' =>
                      ({ cm1 with cursors := mapSet cm1.cursors cid cur' }, none)
                  | .error e => (cm1, some e)
                else (cm1, none)
      match step with
      | (cm1, some e) => (cm1, .error e)
      | (cm', none) =>
          match Cursor.truthy query with
          | some q => (cm', .ok (.search nodeName q filters options))
          | none => (cm', .ok (.plain nodeName filters options))

end Engine

/-! ## Shared lemmas and concrete fixtures -/

theorem foldl_length_eq {postQuery : List (List JVal → List JVal)}
    (hnp : ∀ f ∈ postQuery, ∀ l : List JVal, (f l).length = l.length)
    (raw : List JVal) :
    (postQuery.foldl (fun r h => h r) raw).length = raw.length := by
  induction postQuery generalizing raw with
  | nil => rfl
  | cons f rest ih =>
      simp only [List.foldl_cons]
      rw [ih (fun g hg l => hnp g (List.mem_cons_of_mem f hg) l)]
      exact hnp f (List.mem_cons_self f rest) raw

/-- Example node `User` with a single outgoing edge to `Order`. -/
def exUser : GQPNode :=
  { name := "User", edges := [{ name := "orders", «to» := "Order" }] }

/-- Example node `Order` with edges back to `User` and on to `Product`. -/
def exOrder : GQPNode :=
  { name := "Order"
    edges := [{ name := "user", «to» := "User", relation := "belongsTo" },
              { name := "products", «to» := "Product" }] }

/-- Example node `Product` with no edges. -/
def exProduct : GQPNode := { name := "Product" }

/-- Example schema: `User → Order → {User, Product}`. -/
def exSchema : Schema := Schema.ofNodes [exUser, exOrder, exProduct]

/-- A list of `n` copies of `JVal.null`, standing for an adapter result
array of `n` rows. -/
def nullRows (n : Nat) : List JVal := List.replicate n .null

/-! ## C7 -/

/-- In the happy path (node registered, adapter present) `execute` returns
the shaped result built from the post-query fold. -/
theorem execute_ok_eq (cfg : ExecutorConfig) (s : Schema)
    (adapterSources : List String) (postQuery : List (List JVal → List JVal))
    (nodeName : String) (options : QueryOptions) (raw : List JVal)
    (node : GQPNode) (hnode : s.getNode nodeName = some node)
    (hsrc : node.source ∈ adapterSources) :
    Executor.execute cfg s adapterSources postQuery nodeName options
      (.ok raw) =
    .ok { data := postQuery.foldl (fun r h => h r) raw
          hasMore := decide
            (((postQuery.foldl (fun r h => h r) raw).length : Int) =
              (Executor.normalizeOptions cfg options).limit)
          nextActions := Executor.suggestNextActions cfg node
            (postQuery.foldl (fun r h => h r) raw) } := by
  unfold Executor.execute
  rw [hnode]
  dsimp only
  rw [if_neg (not_not_intro hsrc)]
  rfl

/-- C7: when the adapter resolves with a result array and no post-query
plugin changes its length, `meta.hasMore` of `QueryExecutor.execute` is true
exactly when the result length equals the normalized limit, and false when
it is smaller. -/
theorem execute_hasMore_iff (cfg : ExecutorConfig) (s : Schema)
    (adapterSources : List String) (postQuery : List (List JVal → List JVal))
    (nodeName : String) (options : QueryOptions) (raw : List JVal)
    (res : QueryResultModel)
    (hnp : ∀ f ∈ postQuery, ∀ l : List JVal, (f l).length = l.length)
    (hok : Executor.execute cfg s adapterSources postQuery nodeName options
      (.ok raw) = .ok res) :
    (res.hasMore = true ↔
      (raw.length : Int) = (Executor.normalizeOptions cfg options).limit) ∧
    ((raw.length : Int) < (Executor.normalizeOptions cfg options).limit →
      res.hasMore = false) := by
  unfold Executor.execute at hok
  cases hnode : s.getNode nodeName with
  | none =>
      rw [hnode] at hok
      exact Except.noConfusion hok
  | some node =>
      rw [hnode] at hok
      dsimp only at hok
      by_cases hsrc : node.source ∈ adapterSources
      · rw [if_neg (not_not_intro hsrc)] at hok
        have hok' : Except.ok (ε := GQPError)
            ({ data := postQuery.foldl (fun r h => h r) raw
               hasMore := decide
                 (((postQuery.foldl (fun r h => h r) raw).length : Int) =
                   (Executor.normalizeOptions cfg options).limit)
               nextActions := Executor.suggestNextActions cfg node
                 (postQuery.foldl (fun r h => h r) raw) } :
              QueryResultModel) = .ok res := hok
        injection hok' with h
        rw [← h]
        have hlen := foldl_length_eq hnp raw
        constructor
        · show decide (((postQuery.foldl (fun r h => h r) raw).length : Int) =
            (Executor.normalizeOptions cfg options).limit) = true ↔ _
          rw [hlen]
          exact decide_eq_true_iff
        · intro hlt
          show decide (((postQuery.foldl (fun r h => h r) raw).length : Int) =
            (Executor.normalizeOptions cfg options).limit) = false
          rw [hlen]
          exact decide_eq_false fun he => lt_irrefl _ (he ▸ hlt)
      · rw [if_pos hsrc] at hok
        exact Except.noConfusion hok

/-- C7 witness: a query whose adapter returns exactly `limit` rows has
`hasMore = true`. -/
theorem execute_hasMore_iff_witness :
    ∃ res, Executor.execute {} exSchema ["db"] [] "User" { limit := some 2 }
        (.ok (nullRows 2)) = .ok res ∧ res.hasMore = true := by
  refine ⟨_, rfl, ?_⟩
  have h := execute_hasMore_iff {} exSchema ["db"] [] "User"
    { limit := some 2 } (nullRows 2) _ (fun f hf => absurd hf (by simp)) rfl
  exact h.1.mpr (by decide)

/-! ## C8 -/

/-- No \"navigate to edge\" suggestion collides with the \"add filters\"
suggestion string. -/
theorem navigate_ne_addFilters (t : String) :
    ("Navigate to " ++ t ++ " to see related data") ≠
      "Add filters to narrow down results" := by
  intro h
  have hd : some 'N' = some 'A' := congrArg (fun s => s.data.head?) h
  have hc : ('N' : Char) = 'A' := Option.some.inj hd
  exact absurd hc (by decide)

/-- C8 counterexample: with the default executor configuration
(`defaultLimit = 10`) and a requested (normalized) limit of 20, an adapter
result of 10 rows triggers the "Add filters" suggestion even though the
result count differs from the normalized limit. -/
theorem suggest_addFilters_counterexample :
    ∃ res, Executor.execute {} exSchema ["db"] [] "Product"
        { limit := some 20 } (.ok (nullRows 10)) = .ok res ∧
      res.data.length ≠ 0 ∧
      ((res.data.length : Int) ≠
        (Executor.normalizeOptions {} { limit := some 20 }).limit) ∧
      "Add filters to narrow down results" ∈ res.nextActions := by
  refine ⟨_, rfl, ?_, ?_, ?_⟩ <;> decide

/-- C8 (amended): on a non-empty result, `nextActions` suggests navigating
to up to two of the node's edges, and contains the "add filters" suggestion
exactly when the result count is at least the *configured default limit*
(not the normalized requested limit). -/
theorem suggest_nextActions_spec (cfg : ExecutorConfig) (node : GQPNode)
    (results : List JVal) (hne : results.length ≠ 0) :
    Executor.suggestNextActions cfg node results =
      (node.edges.take 2).map
          (fun e => "Navigate to " ++ e.«to» ++ " to see related data") ++
        (if cfg.defaultLimit ≤ (results.length : Int) then
          ["Add filters to narrow down results"]
        else []) ∧
    ("Add filters to narrow down results" ∈
        Executor.suggestNextActions cfg node results ↔
      cfg.defaultLimit ≤ (results.length : Int)) := by
  have heq : Executor.suggestNextActions cfg node results =
      (node.edges.take 2).map
          (fun e => "Navigate to " ++ e.«to» ++ " to see related data") ++
        (if cfg.defaultLimit ≤ (results.length : Int) then
          ["Add filters to narrow down results"]
        else []) := by
    unfold Executor.suggestNextActions
    rw [if_neg hne]
  refine ⟨heq, ?_⟩
  rw [heq]
  constructor
  · intro hmem
    rcases List.mem_append.mp hmem with hl | hr
    · obtain ⟨e, _, he⟩ := List.mem_map.mp hl
      exact absurd he (navigate_ne_addFilters e.«to»)
    · by_cases hc : cfg.defaultLimit ≤ (results.length : Int)
      · exact hc
      · rw [if_neg hc] at hr
        cases hr
  · intro hc
    apply List.mem_append.mpr
    right
    rw [if_pos hc]
    exact List.mem_singleton.mpr rfl

/-- C8 witness: a two-edge node with one result row yields exactly the two
navigation suggestions and no "add filters" hint (1 < default limit 10). -/
theorem suggest_nextActions_spec_witness :
    ([JVal.null].length ≠ 0) ∧
      ¬ ("Add filters to narrow down results" ∈
          Executor.suggestNextActions {} exOrder [JVal.null]) := by
  have h := suggest_nextActions_spec {} exOrder [JVal.null] (by decide)
  exact ⟨by decide, fun hmem => absurd (h.2.mp hmem) (by decide)⟩

/-! ## C10 -/

theorem updateNeighbors_currentNode (s : Schema) (c : CursorState) :
    (Cursor.updateNeighbors s c).currentNode = c.currentNode := by
  unfold Cursor.updateNeighbors
  cases Cursor.truthy c.currentNode <;> rfl

theorem updateNeighbors_path (s : Schema) (c : CursorState) :
    (Cursor.updateNeighbors s c).path = c.path := by
  unfold Cursor.updateNeighbors
  cases Cursor.truthy c.currentNode <;> rfl

theorem updateNeighbors_depth (s : Schema) (c : CursorState) :
    (Cursor.updateNeighbors s c).depth = c.depth := by
  unfold Cursor.updateNeighbors
  cases Cursor.truthy c.currentNode <;> rfl

theorem updateNeighbors_exploredNodes (s : Schema) (c : CursorState) :
    (Cursor.updateNeighbors s c).exploredNodes = c.exploredNodes := by
  unfold Cursor.updateNeighbors
  cases Cursor.truthy c.currentNode <;> rfl

theorem updateNeighbors_createdAt (s : Schema) (c : CursorState) :
    (Cursor.updateNeighbors s c).createdAt = c.createdAt := by
  unfold Cursor.updateNeighbors
  cases Cursor.truthy c.currentNode <;> rfl

/-- C10 (amended): neither the cursor constructor nor `CursorManager.create`
validates the start node against the graph: for every *non-empty* string
`st` — registered or not — `create` returns a positioned cursor on `st` with
path `[st]` and depth 0, whereas `navigateTo` on an unregistered name throws
NODE_NOT_FOUND. -/
theorem create_unvalidated_startNode (mcfg : ManagerConfig) (s : Schema)
    (m : ManagerState) (st : String) (now : Nat) (hne : st ≠ "") :
    ((Manager.create mcfg s m (some st) now).2.currentNode = some st ∧
      (Manager.create mcfg s m (some st) now).2.path = [st] ∧
      (Manager.create mcfg s m (some st) now).2.depth = 0) ∧
    (∀ (name : String) (c : CursorState), s.getNode name = none →
      Cursor.navigateTo s mcfg.maxPathLength c name =
        .error (createError.nodeNotFound name)) := by
  constructor
  · have hcur : (Manager.create mcfg s m (some st) now).2 =
        Cursor.updateNeighbors s
          { id := Manager.genId
              (if mcfg.maxCursors ≤
                  (Manager.evictExpired mcfg m now).cursors.length then
                Manager.evictOldest (Manager.evictExpired mcfg m now)
              else Manager.evictExpired mcfg m now).nextId
            currentNode := some st
            neighbors := []
            path := [st]
            depth := 0
            createdAt := now
            totalNodes := s.getNodeCount
            exploredNodes := 1 } := by
      unfold Manager.create Cursor.mk Cursor.truthy
      dsimp only
      rw [if_neg hne]
    rw [hcur, updateNeighbors_currentNode, updateNeighbors_path,
      updateNeighbors_depth]
    exact ⟨rfl, rfl, rfl⟩
  · intro name c hnone
    unfold Cursor.navigateTo
    rw [hnone]

/-- C10 witness: `create` happily positions a cursor on a name absent from
the schema, while `navigateTo` on the same name throws. -/
theorem create_unvalidated_startNode_witness :
    ("Ghost" ≠ "" ∧
      (Manager.create {} exSchema {} (some "Ghost") 0).2.currentNode =
        some "Ghost") ∧
    (exSchema.getNode "Ghost" = none ∧
      Cursor.navigateTo exSchema (100 : Nat)
          (Manager.create {} exSchema {} (some "Ghost") 0).2 "Ghost" =
        .error (createError.nodeNotFound "Ghost")) := by
  have hne : "Ghost" ≠ "" := by decide
  have h := create_unvalidated_startNode {} exSchema {} "Ghost" 0 hne
  have hnone : exSchema.getNode "Ghost" = none := by decide
  exact ⟨⟨hne, h.1.1⟩, ⟨hnone, h.2 "Ghost" _ hnone⟩⟩

/-- C10 counterexample: the empty string is a JS-falsy start node, so
`create (some "")` yields an *unset* cursor (currentNode `null`, empty path,
depth −1), not a positioned one as the claim asserts for every string. -/
theorem create_empty_startNode_counterexample :
    (Manager.create {} (Schema.ofNodes []) {} (some "") 0).2.currentNode ≠
        some "" ∧
      (Manager.create {} (Schema.ofNodes []) {} (some "") 0).2.currentNode =
        none ∧
      (Manager.create {} (Schema.ofNodes []) {} (some "") 0).2.path = [] ∧
      (Manager.create {} (Schema.ofNodes []) {} (some "") 0).2.depth = -1 := by
  refine ⟨?_, ?_, ?_, ?_⟩ <;> decide

/-! ## C4 -/

/-- C4 (amended): `isEnabled` is true iff one of {context provider,
node-access rules, RLS rules, introspection policy} is configured, and when
it is false, `checkNodeAccess` and `checkIntrospectionAccess` never throw
and `applyRLS` returns the caller's filters unchanged. The hidden-node /
hidden-field checks, however, are driven solely by `hiddenNodes` /
`hiddenFields`, which do not influence `isEnabled` — they can hide fields
even while `isEnabled` is false. -/
theorem security_disabled_noop (cfg : SecurityConfig) :
    (Security.isEnabled cfg = true ↔
      (cfg.context.isSome ∨ cfg.nodeAccess.isSome ∨
        cfg.rowLevelSecurity.isSome ∨ cfg.introspection.isSome)) ∧
    (Security.isEnabled cfg = false →
      ∀ (node action : String) (filters : QueryFilters)
        (ctx : Option SecurityContext),
        Security.checkNodeAccess cfg node action ctx = .ok () ∧
        Security.checkIntrospectionAccess cfg ctx = .ok () ∧
        Security.applyRLS cfg node filters ctx = .ok filters) := by
  constructor
  · unfold Security.isEnabled
    simp [decide_eq_true_eq]
  · intro hdis node action filters ctx
    unfold Security.isEnabled at hdis
    simp only [Bool.decide_or, Bool.or_eq_false_iff, decide_eq_false_iff_not,
      Option.not_isSome_iff_eq_none] at hdis
    obtain ⟨hctx, hacc, hrls, hint⟩ := hdis
    have hres : Security.resolveContext cfg ctx =
        .ok (match ctx with | some c => c | none => {}) := by
      unfold Security.resolveContext Security.getContext
      rw [hctx]
      cases ctx <;> rfl
    refine ⟨?_, ?_, ?_⟩
    · unfold Security.checkNodeAccess
      rw [hres, hacc]
      rfl
    · unfold Security.checkIntrospectionAccess
      rw [hint]
      rfl
    · unfold Security.applyRLS Security.getRLSFilters
      rw [hres, hrls]
      rfl

/-- C4 witness: the whole no-op bundle at an empty configuration. -/
theorem security_disabled_noop_witness :
    Security.isEnabled {} = false ∧
    Security.checkNodeAccess {} "User" "query" none = .ok () ∧
    Security.checkIntrospectionAccess {} none = .ok () ∧
    Security.applyRLS {} "User" [("status", .str "pending")] none =
      .ok [("status", .str "pending")] := by
  have hdis : Security.isEnabled ({} : SecurityConfig) = false := rfl
  have h := (security_disabled_noop {}).2 hdis "User" "query"
    [("status", .str "pending")] none
  exact ⟨hdis, h.1, h.2.1, h.2.2⟩

/-- C4 counterexample: a configuration consisting solely of `hiddenFields`
is "disabled" for `isEnabled`, yet `isFieldHidden` reports `password` hidden
and `filterHiddenFields` strips it, contradicting "whenever isEnabled() is
false, every check is a no-op". -/
theorem security_hiddenFields_counterexample :
    Security.isEnabled { hiddenFields := some ["password"] } = false ∧
    Security.isFieldHidden { hiddenFields := some ["password"] } "password" =
      true ∧
    Security.filterHiddenFields { hiddenFields := some ["password"] }
        { name := "User", fields := [{ name := "password" }] } =
      { name := "User", fields := [] } := by
  refine ⟨rfl, rfl, rfl⟩

/-! ## C9 -/

theorem get_none_state (cfg : ManagerConfig) (m : ManagerState) (id : String)
    (now : Nat) (h : (Manager.get cfg m id now).2 = none) :
    (∀ e ∈ (Manager.get cfg m id now).1.cursors, e ∈ m.cursors) ∧
    (Manager.get cfg m id now).1.cursors.length ≤ m.cursors.length ∧
    (Manager.get cfg m id now).1.nextId = m.nextId := by
  unfold Manager.get at h ⊢
  cases hm : mapGet m.cursors id with
  | none => exact ⟨fun e he => he, le_refl _, rfl⟩
  | some c =>
      dsimp only
      by_cases hex : Manager.isExpired cfg now c = true
      · rw [if_pos hex]
        refine ⟨fun e he => (List.mem_filter.mp he).1, ?_, rfl⟩
        exact List.length_filter_le _ _
      · rw [hm] at h
        dsimp only at h
        rw [if_neg hex] at h
        exact absurd h (by simp)

theorem queryStep_none_eq (s : Schema) (mcfg : ManagerConfig)
    (cm : ManagerState) (nodeName : String) (query : Option String)
    (filters : QueryFilters) (options : Option QueryOptions) (now : Nat) :
    Engine.queryStep s mcfg cm nodeName query filters options none now =
      (cm, match s.getNode nodeName with
        | none => .error (createError.nodeNotFound nodeName)
        | some _ =>
            match Cursor.truthy query with
            | some q => .ok (.search nodeName q filters options)
            | none => .ok (.plain nodeName filters options)) := by
  unfold Engine.queryStep
  cases s.getNode nodeName with
  | none => rfl
  | some _ =>
      dsimp only
      cases Cursor.truthy query <;> rfl

/-- C9: a query carrying a cursorId that does not name a live, unexpired
cursor raises no cursor error and creates no cursor: the dispatched executor
call (and any error) is exactly the one of the same query without a
cursorId, the pool gains no entry and the id counter is untouched (the only
pool change is the lazy deletion of an expired entry); the only error the
call can produce is NODE_NOT_FOUND for the queried node. -/
theorem query_unknown_cursorId_ignored (s : Schema) (mcfg : ManagerConfig)
    (cm : ManagerState) (nodeName : String) (query : Option String)
    (filters : QueryFilters) (options : Option QueryOptions) (cid : String)
    (now : Nat) (hnone : (Manager.get mcfg cm cid now).2 = none) :
    (Engine.queryStep s mcfg cm nodeName query filters options (some cid)
        now).2 =
      (Engine.queryStep s mcfg cm nodeName query filters options none now).2 ∧
    (∀ e ∈ (Engine.queryStep s mcfg cm nodeName query filters options
        (some cid) now).1.cursors, e ∈ cm.cursors) ∧
    (Engine.queryStep s mcfg cm nodeName query filters options (some cid)
        now).1.cursors.length ≤ cm.cursors.length ∧
    (Engine.queryStep s mcfg cm nodeName query filters options (some cid)
        now).1.nextId = cm.nextId ∧
    (∀ err, (Engine.queryStep s mcfg cm nodeName query filters options
        (some cid) now).2 = .error err → err.code = "NODE_NOT_FOUND") := by
  have hstate := get_none_state mcfg cm cid now hnone
  have hsplit : Engine.queryStep s mcfg cm nodeName query filters options
      (some cid) now =
      (match s.getNode nodeName with
      | none => (cm, .error (createError.nodeNotFound nodeName))
      | some _ =>
          ((if cid = "" then cm else (Manager.get mcfg cm cid now).1),
            match Cursor.truthy query with
            | some q => .ok (.search nodeName q filters options)
            | none => .ok (.plain nodeName filters options))) := by
    unfold Engine.queryStep
    cases hn : s.getNode nodeName with
    | none => rfl
    | some _ =>
        dsimp only
        by_cases hcid : cid = ""
        · rw [show Cursor.truthy (some cid) = none from by
            simp [Cursor.truthy, hcid]]
          rw [if_pos hcid]
          dsimp only
          cases Cursor.truthy query <;> rfl
        · rw [show Cursor.truthy (some cid) = some cid from by
            simp [Cursor.truthy, hcid]]
          rw [if_neg hcid]
          dsimp only
          cases hget : Manager.get mcfg cm cid now with
          | mk cm1 got =>
              rw [hget] at hnone
              dsimp only at hnone
              subst hnone
              dsimp only
              cases Cursor.truthy query <;> rfl
  rw [hsplit, queryStep_none_eq]
  have hm1 : ∀ e ∈ (if cid = "" then cm
      else (Manager.get mcfg cm cid now).1).cursors, e ∈ cm.cursors := by
    by_cases hcid : cid = ""
    · rw [if_pos hcid]
      exact fun e he => he
    · rw [if_neg hcid]
      exact hstate.1
  have hm2 : (if cid = "" then cm
      else (Manager.get mcfg cm cid now).1).cursors.length ≤
      cm.cursors.length := by
    by_cases hcid : cid = ""
    · rw [if_pos hcid]
    · rw [if_neg hcid]
      exact hstate.2.1
  have hm3 : (if cid = "" then cm
      else (Manager.get mcfg cm cid now).1).nextId = cm.nextId := by
    by_cases hcid : cid = ""
    · rw [if_pos hcid]
    · rw [if_neg hcid]
      exact hstate.2.2
  cases hn : s.getNode nodeName with
  | none =>
      refine ⟨rfl, fun e he => he, le_refl _, rfl, ?_⟩
      intro err herr
      injection herr with h
      rw [← h]
      rfl
  | some _ =>
      refine ⟨rfl, hm1, hm2, hm3, ?_⟩
      intro err herr
      cases hq : Cursor.truthy query <;> rw [hq] at herr <;>
        exact Except.noConfusion herr

/-- C9 witness: an unknown cursor id on a live pool is ignored and the
dispatched call matches the id-free call. -/
theorem query_unknown_cursorId_ignored_witness :
    ((Manager.get {} {} "cursor_missing" 0).2 = none) ∧
    (Engine.queryStep exSchema {} {} "User" none [] none
        (some "cursor_missing") 0).2 =
      (Engine.queryStep exSchema {} {} "User" none [] none none 0).2 ∧
    (Engine.queryStep exSchema {} {} "User" none [] none
        (some "cursor_missing") 0).1.cursors.length = 0 := by
  have hnone : (Manager.get {} ({} : ManagerState) "cursor_missing" 0).2 =
      none := rfl
  have h := query_unknown_cursorId_ignored exSchema {} {} "User" none [] none
    "cursor_missing" 0 hnone
  refine ⟨hnone, h.1, ?_⟩
  exact Nat.le_zero.mp h.2.2.1

/-! ## C6 -/

theorem mapGet_mapSet_self (m : List (String × α)) (k : String) (v : α) :
    mapGet (mapSet m k v) k = some v := by
  induction m with
  | nil => simp [mapSet, mapGet]
  | cons e rest ih =>
      obtain ⟨k', v'⟩ := e
      by_cases hk : k' = k
      · simp [mapSet, mapGet, hk]
      · simp only [mapSet, if_neg hk, mapGet]
        exact ih

theorem mem_mapSet (m : List (String × α)) (k : String) (v : α) (e) :
    e ∈ mapSet m k v → e = (k, v) ∨ e ∈ m := by
  induction m with
  | nil =>
      intro h
      simp only [mapSet, List.mem_singleton] at h
      exact Or.inl h
  | cons hd rest ih =>
      obtain ⟨k', v'⟩ := hd
      by_cases hk : k' = k
      · simp only [mapSet, if_pos hk]
        intro h
        rcases List.mem_cons.mp h with rfl | hm
        · exact Or.inl rfl
        · exact Or.inr (List.mem_cons_of_mem _ hm)
      · simp only [mapSet, if_neg hk]
        intro h
        rcases List.mem_cons.mp h with rfl | hm
        · exact Or.inr (List.mem_cons_self _ _)
        · rcases ih hm with h1 | h2
          · exact Or.inl h1
          · exact Or.inr (List.mem_cons_of_mem _ h2)

theorem mem_keys_mapSet (m : List (String × α)) (k : String) (v : α) (a) :
    a ∈ (mapSet m k v).map Prod.fst → a ∈ m.map Prod.fst ∨ a = k := by
  intro h
  obtain ⟨e, hmem, hfst⟩ := List.mem_map.mp h
  rcases mem_mapSet m k v e hmem with rfl | hm
  · exact Or.inr hfst.symm
  · exact Or.inl (hfst ▸ List.mem_map_of_mem Prod.fst hm)

theorem nodup_keys_mapSet (m : List (String × α)) (k : String) (v : α)
    (h : (m.map Prod.fst).Nodup) : ((mapSet m k v).map Prod.fst).Nodup := by
  induction m with
  | nil => simp [mapSet]
  | cons hd rest ih =>
      obtain ⟨k', v'⟩ := hd
      simp only [List.map_cons, List.nodup_cons] at h
      by_cases hk : k' = k
      · subst hk
        simp only [mapSet, if_true, List.map_cons, List.nodup_cons]
        exact h
      · simp only [mapSet, if_neg hk, List.map_cons, List.nodup_cons]
        refine ⟨?_, ih h.2⟩
        intro hmem
        rcases mem_keys_mapSet rest k v k' hmem with h1 | h2
        · exact h.1 h1
        · exact hk h2

theorem mapSet_length_le (m : List (String × α)) (k : String) (v : α) :
    (mapSet m k v).length ≤ m.length + 1 := by
  induction m with
  | nil => simp [mapSet]
  | cons hd rest ih =>
      obtain ⟨k', v'⟩ := hd
      by_cases hk : k' = k
      · simp [mapSet, if_pos hk]
      · simp only [mapSet, if_neg hk, List.length_cons]
        omega

theorem foldl_oldest_grow (l : List (String × CursorState))
    (p : String × Nat) :
    ∃ q : String × Nat, l.foldl Manager.oldestStep (some p) = some q ∧
      (q = p ∨ ∃ e ∈ l, e.1 = q.1 ∧ e.2.createdAt = q.2) ∧
      q.2 ≤ p.2 ∧ (∀ e ∈ l, q.2 ≤ e.2.createdAt) := by
  induction l generalizing p with
  | nil => exact ⟨p, rfl, Or.inl rfl, le_refl _, fun e he => absurd he (by simp)⟩
  | cons e rest ih =>
      simp only [List.foldl_cons]
      by_cases hlt : e.2.createdAt < p.2
      · have hstep0 : Manager.oldestStep (some p) e =
            if e.2.createdAt < p.2 then some (e.1, e.2.createdAt)
            else some p := rfl
        rw [hstep0, if_pos hlt]
        obtain ⟨q, hq, hwit, hle, hall⟩ := ih (e.1, e.2.createdAt)
        refine ⟨q, hq, ?_, le_trans hle (le_of_lt hlt), ?_⟩
        · rcases hwit with rfl | ⟨e', he', h1, h2⟩
          · exact Or.inr ⟨e, List.mem_cons_self _ _, rfl, rfl⟩
          · exact Or.inr ⟨e', List.mem_cons_of_mem _ he', h1, h2⟩
        · intro e' he'
          rcases List.mem_cons.mp he' with rfl | hm
          · exact hle
          · exact hall e' hm
      · have hstep0 : Manager.oldestStep (some p) e =
            if e.2.createdAt < p.2 then some (e.1, e.2.createdAt)
            else some p := rfl
        rw [hstep0, if_neg hlt]
        obtain ⟨q, hq, hwit, hle, hall⟩ := ih p
        refine ⟨q, hq, ?_, hle, ?_⟩
        · rcases hwit with rfl | hw
          · exact Or.inl rfl
          · obtain ⟨e', he', h1, h2⟩ := hw
            exact Or.inr ⟨e', List.mem_cons_of_mem _ he', h1, h2⟩
        · intro e' he'
          rcases List.mem_cons.mp he' with rfl | hm
          · exact le_trans hle (not_lt.mp hlt)
          · exact hall e' hm

theorem evictOldest_spec (m : ManagerState) (hne : m.cursors ≠ [])
    (hkeys : "" ∉ m.cursors.map Prod.fst) :
    ∃ oid c, (oid, c) ∈ m.cursors ∧
      (∀ e ∈ m.cursors, c.createdAt ≤ e.2.createdAt) ∧
      (Manager.evictOldest m).cursors =
        m.cursors.filter (fun e => e.1 ≠ oid) := by
  obtain ⟨e, rest, hl⟩ := List.exists_cons_of_ne_nil hne
  have hfold : m.cursors.foldl Manager.oldestStep none =
      rest.foldl Manager.oldestStep (some (e.1, e.2.createdAt)) := by
    rw [hl]
    rfl
  obtain ⟨q, hq, hwit, hle, hall⟩ := foldl_oldest_grow rest (e.1, e.2.createdAt)
  have hminall : ∀ e' ∈ m.cursors, q.2 ≤ e'.2.createdAt := by
    intro e' he'
    rw [hl] at he'
    rcases List.mem_cons.mp he' with rfl | hm
    · exact hle
    · exact hall e' hm
  have hwitness : ∃ c, (q.1, c) ∈ m.cursors ∧ c.createdAt = q.2 := by
    rcases hwit with rfl | ⟨e', he', h1, h2⟩
    · exact ⟨e.2, by rw [hl]; exact List.mem_cons_self _ _, rfl⟩
    · refine ⟨e'.2, ?_, h2⟩
      rw [hl]
      exact List.mem_cons_of_mem _ (by rw [← h1]; exact he')
  obtain ⟨c, hcmem, hcq⟩ := hwitness
  have hoid : q.1 ≠ "" := by
    intro habs
    exact hkeys (habs ▸ List.mem_map_of_mem Prod.fst hcmem)
  refine ⟨q.1, c, hcmem, ?_, ?_⟩
  · intro e' he'
    rw [hcq]
    exact hminall e' he'
  · unfold Manager.evictOldest
    rw [hfold, hq]
    dsimp only
    rw [if_neg hoid]

/-- The pool state after `create`'s sweep-and-evict prelude (proof
abbreviation for the first two statements of `CursorManager.create`). -/
def sweepAndEvict (cfg : ManagerConfig) (m : ManagerState) (now : Nat) :
    ManagerState :=
  let m1 := Manager.evictExpired cfg m now
  if cfg.maxCursors ≤ m1.cursors.length then Manager.evictOldest m1 else m1

/-- The cursor constructed by `create` (proof abbreviation). -/
def createdCursor (cfg : ManagerConfig) (s : Schema) (m : ManagerState)
    (startNode : Option String) (now : Nat) : CursorState :=
  Cursor.mk s startNode (Manager.genId (sweepAndEvict cfg m now).nextId) now
    cfg.maxPathLength

theorem create_eq (cfg : ManagerConfig) (s : Schema) (m : ManagerState)
    (startNode : Option String) (now : Nat) :
    Manager.create cfg s m startNode now =
      (ManagerState.mk
        (mapSet (sweepAndEvict cfg m now).cursors
          (createdCursor cfg s m startNode now).id
          (createdCursor cfg s m startNode now))
        ((sweepAndEvict cfg m now).nextId + 1),
        createdCursor cfg s m startNode now) := rfl

/-- C6: `create` sweeps expired cursors, evicts an entry carrying the
minimal creation timestamp when still at capacity, and registers the new
cursor, so a pool within capacity stays within capacity (the pool keys stay
duplicate-free and non-empty, ensuring the eviction really removes an
entry). -/
theorem create_spec (cfg : ManagerConfig) (s : Schema) (m : ManagerState)
    (startNode : Option String) (now : Nat)
    (hmax : 1 ≤ cfg.maxCursors)
    (hsize : m.cursors.length ≤ cfg.maxCursors)
    (hkeys : "" ∉ m.cursors.map Prod.fst) :
    (Manager.create cfg s m startNode now).1.cursors.length ≤
        cfg.maxCursors ∧
    (∀ e ∈ (Manager.create cfg s m startNode now).1.cursors,
      e.1 ≠ (Manager.create cfg s m startNode now).2.id →
        e ∈ m.cursors ∧ Manager.isExpired cfg now e.2 = false) ∧
    mapGet (Manager.create cfg s m startNode now).1.cursors
        (Manager.create cfg s m startNode now).2.id =
      some (Manager.create cfg s m startNode now).2 ∧
    (cfg.maxCursors ≤ (Manager.evictExpired cfg m now).cursors.length →
      ∃ oid c, (oid, c) ∈ (Manager.evictExpired cfg m now).cursors ∧
        (∀ e ∈ (Manager.evictExpired cfg m now).cursors,
          c.createdAt ≤ e.2.createdAt) ∧
        (Manager.evictOldest (Manager.evictExpired cfg m now)).cursors =
          (Manager.evictExpired cfg m now).cursors.filter
            (fun e => e.1 ≠ oid)) := by
  have hm1mem : ∀ e ∈ (Manager.evictExpired cfg m now).cursors,
      e ∈ m.cursors ∧ Manager.isExpired cfg now e.2 = false := by
    intro e he
    unfold Manager.evictExpired at he
    have hmf := List.mem_filter.mp he
    refine ⟨hmf.1, ?_⟩
    have h2 := hmf.2
    simp only [decide_eq_true_eq] at h2
    exact Bool.eq_false_iff.mpr h2
  have hm1len : (Manager.evictExpired cfg m now).cursors.length ≤
      m.cursors.length := List.length_filter_le _ _
  have hm1keys : "" ∉ (Manager.evictExpired cfg m now).cursors.map
      Prod.fst := by
    intro habs
    obtain ⟨e, he, hfst⟩ := List.mem_map.mp habs
    exact hkeys (hfst ▸ List.mem_map_of_mem Prod.fst (hm1mem e he).1)
  have hsw : sweepAndEvict cfg m now =
      (if cfg.maxCursors ≤
          (Manager.evictExpired cfg m now).cursors.length then
        Manager.evictOldest (Manager.evictExpired cfg m now)
      else Manager.evictExpired cfg m now) := rfl
  have hm2 : (sweepAndEvict cfg m now).cursors.length + 1 ≤ cfg.maxCursors ∧
      ∀ e ∈ (sweepAndEvict cfg m now).cursors,
        e ∈ (Manager.evictExpired cfg m now).cursors := by
    rw [hsw]
    by_cases hcap : cfg.maxCursors ≤
        (Manager.evictExpired cfg m now).cursors.length
    · rw [if_pos hcap]
      have hne1 : (Manager.evictExpired cfg m now).cursors ≠ [] := by
        intro habs
        rw [habs] at hcap
        simp only [List.length_nil, Nat.le_zero] at hcap
        omega
      obtain ⟨oid, c, hcmem, hmin, hev⟩ :=
        evictOldest_spec (Manager.evictExpired cfg m now) hne1 hm1keys
      constructor
      · rw [hev]
        have hlt : ((Manager.evictExpired cfg m now).cursors.filter
            (fun e => e.1 ≠ oid)).length <
            (Manager.evictExpired cfg m now).cursors.length := by
          have hx := filter_length_lt_of_imp
            (l := (Manager.evictExpired cfg m now).cursors)
            (p := fun _ => true) (q := fun e => decide (e.1 ≠ oid))
            (fun x _ => rfl) (a := (oid, c)) hcmem rfl (by simp)
          rw [List.filter_true] at hx
          exact hx
        omega
      · intro e he
        rw [hev] at he
        exact (List.mem_filter.mp he).1
    · rw [if_neg hcap]
      exact ⟨by omega, fun e he => he⟩
  refine ⟨?_, ?_, ?_, ?_⟩
  · rw [create_eq]
    calc (mapSet (sweepAndEvict cfg m now).cursors
          (createdCursor cfg s m startNode now).id
          (createdCursor cfg s m startNode now)).length
        ≤ (sweepAndEvict cfg m now).cursors.length + 1 :=
          mapSet_length_le _ _ _
      _ ≤ cfg.maxCursors := hm2.1
  · intro e he hne
    rw [create_eq] at he hne
    rcases mem_mapSet _ _ _ e he with rfl | hm
    · exact absurd rfl hne
    · exact hm1mem e (hm2.2 e hm)
  · rw [create_eq]
    exact mapGet_mapSet_self _ _ _
  · intro hcap
    have hne1 : (Manager.evictExpired cfg m now).cursors ≠ [] := by
      intro habs
      rw [habs] at hcap
      simp only [List.length_nil, Nat.le_zero] at hcap
      omega
    exact evictOldest_spec (Manager.evictExpired cfg m now) hne1 hm1keys

/-- A capacity-3 manager configuration. -/
def exCfg3 : ManagerConfig := { maxCursors := 3 }

/-- A pool holding three cursors created at times 0, 1 and 2. -/
def exPool3 : ManagerState :=
  (Manager.create exCfg3 exSchema
    (Manager.create exCfg3 exSchema
      (Manager.create exCfg3 exSchema {} none 0).1 none 1).1 none 2).1

/-- C6 witness: with capacity 3 and three unexpired cursors, creating a
fourth evicts the oldest (`cursor_0`) and the pool size stays 3. -/
theorem create_spec_witness :
    (1 ≤ exCfg3.maxCursors ∧ exPool3.cursors.length ≤ exCfg3.maxCursors ∧
      "" ∉ exPool3.cursors.map Prod.fst) ∧
    (Manager.create exCfg3 exSchema exPool3 none 3).1.cursors.length ≤
      exCfg3.maxCursors ∧
    Manager.size (Manager.create exCfg3 exSchema exPool3 none 3).1 = 3 ∧
    mapGet (Manager.create exCfg3 exSchema exPool3 none 3).1.cursors
      "cursor_0" = none := by
  have h := create_spec exCfg3 exSchema exPool3 none 3 (by decide) (by decide)
    (by decide)
  exact ⟨⟨by decide, by decide, by decide⟩, h.1, by decide, by decide⟩

/-! ## C2 -/

/-- The cursor-mutating operations of the claim. -/
inductive CursorOp where
  | nav (name : String) : CursorOp
  | back : CursorOp
  | reset : CursorOp
deriving DecidableEq, Repr

/-- Apply one cursor operation; a failing `navigateTo` (unregistered name)
leaves the state unchanged, as does `goBack` from the first visited node
(the code returns `null` without mutating in both situations before any
state change). -/
def runOp (s : Schema) (maxLen : Nat) (c : CursorState) : CursorOp → CursorState
  | .nav n =>
      match Cursor.navigateTo s maxLen c n with
      | .ok c' => c'
      | .error _ => c
  | .back => (Cursor.goBack s c).getD c
  | .reset => Cursor.reset c

/-- Apply a sequence of cursor operations. -/
def runOps (s : Schema) (maxLen : Nat) (c : CursorState)
    (ops : List CursorOp) : CursorState :=
  ops.foldl (runOp s maxLen) c

theorem runOps_invariant (s : Schema) (maxLen : Nat) (ops : List CursorOp) :
    ∀ c : CursorState,
      c.depth = (c.path.length : Int) - 1 →
      c.path.length + ops.length ≤ maxLen →
      ((runOps s maxLen c ops).depth =
          ((runOps s maxLen c ops).path.length : Int) - 1 ∧
        (runOps s maxLen c ops).path.length ≤ c.path.length + ops.length) ∧
      ((∀ op ∈ ops, op ≠ CursorOp.back) →
        c.exploredNodes = c.path.dedup.length →
        (runOps s maxLen c ops).exploredNodes =
          (runOps s maxLen c ops).path.dedup.length) := by
  induction ops with
  | nil => exact fun c hd _ => ⟨⟨hd, le_refl _⟩, fun _ he => he⟩
  | cons op rest ih =>
      intro c hd hlen
      have hstep :
          ((runOp s maxLen c op).depth =
              ((runOp s maxLen c op).path.length : Int) - 1 ∧
            (runOp s maxLen c op).path.length ≤ c.path.length + 1) ∧
          (op ≠ CursorOp.back →
            c.exploredNodes = c.path.dedup.length →
            (runOp s maxLen c op).exploredNodes =
              (runOp s maxLen c op).path.dedup.length) := by
        cases op with
        | nav n =>
            have hb0 : runOp s maxLen c (.nav n) =
                (match Cursor.navigateTo s maxLen c n with
                | .ok c' => c'
                | .error _ => c) := rfl
            cases hg : s.getNode n with
            | none =>
                have hnv : Cursor.navigateTo s maxLen c n =
                    .error (createError.nodeNotFound n) := by
                  unfold Cursor.navigateTo
                  rw [hg]
                rw [hb0, hnv]
                dsimp only
                exact ⟨⟨hd, by omega⟩, fun _ he => he⟩
            | some node =>
                have hlt : ¬ maxLen ≤ c.path.length := by
                  simp only [List.length_cons] at hlen
                  omega
                have hnv : Cursor.navigateTo s maxLen c n =
                    .ok (Cursor.updateNeighbors s
                      { c with currentNode := some n
                               depth := (c.path.length : Int)
                               path := c.path ++ [n]
                               exploredNodes :=
                                 (c.path ++ [n]).dedup.length }) := by
                  unfold Cursor.navigateTo
                  rw [hg]
                  dsimp only
                  rw [if_neg hlt]
                rw [hb0, hnv]
                dsimp only
                rw [updateNeighbors_depth, updateNeighbors_path,
                  updateNeighbors_exploredNodes]
                refine ⟨⟨?_, ?_⟩, fun _ _ => rfl⟩
                · simp only [List.length_append, List.length_singleton]
                  push_cast
                  ring
                · simp [List.length_append]
        | back =>
            have hb0 : runOp s maxLen c .back = (Cursor.goBack s c).getD c :=
              rfl
            by_cases hb : c.path.length ≤ 1
            · have hgb : Cursor.goBack s c = none := by
                unfold Cursor.goBack
                rw [if_pos hb]
              rw [hb0, hgb, Option.getD_none]
              exact ⟨⟨hd, by omega⟩, fun hne _ => absurd rfl hne⟩
            · have hgb : Cursor.goBack s c =
                  some (Cursor.updateNeighbors s
                    { c with
                      currentNode := Cursor.truthy c.path.dropLast.getLast?,
                      path := c.path.dropLast,
                      depth := max 0 (c.depth - 1) }) := by
                unfold Cursor.goBack
                rw [if_neg hb]
              rw [hb0, hgb, Option.getD_some]
              rw [updateNeighbors_depth, updateNeighbors_path,
                updateNeighbors_exploredNodes]
              refine ⟨⟨?_, ?_⟩, fun hne _ => absurd rfl hne⟩
              · have hlen2 : c.path.dropLast.length = c.path.length - 1 :=
                  List.length_dropLast c.path
                rw [hlen2, hd]
                have h2 : 2 ≤ c.path.length := by omega
                rw [max_eq_right]
                · rw [Nat.cast_sub (by omega : 1 ≤ c.path.length)]
                  push_cast
                  ring
                · have h2' : (2 : Int) ≤ (c.path.length : Int) := by
                    exact_mod_cast h2
                  omega
              · rw [List.length_dropLast]
                omega
        | reset =>
            have hb0 : runOp s maxLen c .reset = Cursor.reset c := rfl
            rw [hb0]
            refine ⟨⟨?_, ?_⟩, fun _ _ => rfl⟩
            · simp [Cursor.reset]
            · simp [Cursor.reset]
      have hnext := ih (runOp s maxLen c op)
        hstep.1.1
        (by
          have := hstep.1.2
          simp only [List.length_cons] at hlen
          omega)
      refine ⟨⟨hnext.1.1, ?_⟩, ?_⟩
      · have := hnext.1.2
        have := hstep.1.2
        simp only [List.length_cons]
        calc (runOps s maxLen (runOp s maxLen c op) rest).path.length
            ≤ (runOp s maxLen c op).path.length + rest.length := hnext.1.2
          _ ≤ c.path.length + 1 + rest.length := by omega
          _ = c.path.length + (rest.length + 1) := by omega
      · intro hnb he
        have hop : op ≠ CursorOp.back := hnb op (List.mem_cons_self _ _)
        exact hnext.2 (fun o ho => hnb o (List.mem_cons_of_mem _ ho))
          (hstep.2 hop he)

/-- C2 (amended): provided the number of operations stays below the
configured maximum path length (so the sliding window never fires), every
state reachable from a fresh cursor by navigateTo/goBack/reset satisfies
depth = path length − 1 (−1 when the path is empty); and along sequences
without goBack, exploredNodes equals the number of distinct names in the
path (goBack does not recompute it, and a fired sliding window leaves depth
equal to the path length). -/
theorem cursor_state_invariants (s : Schema) (maxLen : Nat)
    (startNode : Option String) (id : String) (now : Nat)
    (ops : List CursorOp) (hops : ops.length < maxLen) :
    (runOps s maxLen (Cursor.mk s startNode id now maxLen) ops).depth =
      ((runOps s maxLen (Cursor.mk s startNode id now maxLen)
        ops).path.length : Int) - 1 ∧
    ((∀ op ∈ ops, op ≠ CursorOp.back) →
      (runOps s maxLen (Cursor.mk s startNode id now maxLen)
          ops).exploredNodes =
        (runOps s maxLen (Cursor.mk s startNode id now maxLen)
          ops).path.dedup.length) := by
  have hinit : (Cursor.mk s startNode id now maxLen).depth =
      ((Cursor.mk s startNode id now maxLen).path.length : Int) - 1 ∧
      (Cursor.mk s startNode id now maxLen).path.length ≤ 1 ∧
      (Cursor.mk s startNode id now maxLen).exploredNodes =
        (Cursor.mk s startNode id now maxLen).path.dedup.length := by
    unfold Cursor.mk
    dsimp only
    cases hts : Cursor.truthy startNode with
    | none =>
        refine ⟨?_, ?_, ?_⟩ <;> simp
    | some n =>
        rw [updateNeighbors_depth, updateNeighbors_path,
          updateNeighbors_exploredNodes]
        refine ⟨?_, ?_, ?_⟩ <;> simp
  have h := runOps_invariant s maxLen ops
    (Cursor.mk s startNode id now maxLen) hinit.1
    (by
      have h1 := hinit.2.1
      omega)
  exact ⟨h.1.1, fun hnb => h.2 hnb hinit.2.2⟩

/-- C2 witness: visiting User, Order, User again yields exploredNodes = 2
with path length 3 and depth 2. -/
theorem cursor_state_invariants_witness :
    (([CursorOp.nav "User", CursorOp.nav "Order", CursorOp.nav "User"] :
        List CursorOp).length < 100) ∧
    (runOps exSchema 100 (Cursor.mk exSchema none "w0" 0 100)
        [CursorOp.nav "User", CursorOp.nav "Order", CursorOp.nav "User"]
      ).exploredNodes = 2 ∧
    (runOps exSchema 100 (Cursor.mk exSchema none "w0" 0 100)
        [CursorOp.nav "User", CursorOp.nav "Order", CursorOp.nav "User"]
      ).path.length = 3 ∧
    (runOps exSchema 100 (Cursor.mk exSchema none "w0" 0 100)
        [CursorOp.nav "User", CursorOp.nav "Order", CursorOp.nav "User"]
      ).depth = 2 := by
  have h := cursor_state_invariants exSchema 100 none "w0" 0
    [CursorOp.nav "User", CursorOp.nav "Order", CursorOp.nav "User"]
    (by decide)
  have h2 := h.2 (by decide)
  refine ⟨by decide, ?_, by decide, by decide⟩
  rw [h2]
  decide

/-- C2 counterexample: goBack leaves exploredNodes stale (2 on the popped
path ["User"], whose distinct count is 1), and with maxPathLength = 2 the
sliding window leaves depth = 2 on a path of length 2. -/
theorem cursor_invariants_counterexample :
    ((runOps exSchema 100 (Cursor.mk exSchema none "c0" 0 100)
        [CursorOp.nav "User", CursorOp.nav "Order", CursorOp.back]
      ).exploredNodes = 2 ∧
      (runOps exSchema 100 (Cursor.mk exSchema none "c0" 0 100)
        [CursorOp.nav "User", CursorOp.nav "Order", CursorOp.back]
      ).path = ["User"] ∧
      (runOps exSchema 100 (Cursor.mk exSchema none "c0" 0 100)
          [CursorOp.nav "User", CursorOp.nav "Order", CursorOp.back]
        ).exploredNodes ≠
        (runOps exSchema 100 (Cursor.mk exSchema none "c0" 0 100)
          [CursorOp.nav "User", CursorOp.nav "Order", CursorOp.back]
        ).path.dedup.length) ∧
    ((runOps exSchema 2 (Cursor.mk exSchema none "c1" 0 2)
        [CursorOp.nav "User", CursorOp.nav "Order", CursorOp.nav "Product"]
      ).depth = 2 ∧
      (runOps exSchema 2 (Cursor.mk exSchema none "c1" 0 2)
        [CursorOp.nav "User", CursorOp.nav "Order", CursorOp.nav "Product"]
      ).path.length = 2) := by
  refine ⟨⟨?_, ?_, ?_⟩, ?_, ?_⟩ <;> decide

/-! ## C1 -/

mutual

/-- No AND/OR/NOT key occurs anywhere in the value. -/
def noLogical : JVal → Bool
  | .obj fs => noLogicalEntries fs
  | .arr xs => noLogicalList xs
  | _ => true

def noLogicalList : List JVal → Bool
  | [] => true
  | v :: rest => noLogical v && noLogicalList rest

def noLogicalEntries : List (String × JVal) → Bool
  | [] => true
  | e :: rest =>
      decide (e.1 ∉ ["AND", "OR", "NOT"]) && noLogical e.2 &&
        noLogicalEntries rest

end

mutual

/-- Structural object/array nesting depth of a JSON value. -/
def jdepth : JVal → Nat
  | .arr xs => 1 + jdepthList xs
  | .obj fs => 1 + jdepthEntries fs
  | .null => 0
  | .bool _ => 0
  | .num _ => 0
  | .str _ => 0

def jdepthList : List JVal → Nat
  | [] => 0
  | v :: rest => max (jdepth v) (jdepthList rest)

def jdepthEntries : List (String × JVal) → Nat
  | [] => 0
  | e :: rest => max (jdepth e.2) (jdepthEntries rest)

end

theorem jdepthEntries_map_snd (l : List (Nat × JVal)) :
    jdepthEntries (l.map (fun e => (toString e.1, e.2))) =
      jdepthList (l.map Prod.snd) := by
  induction l with
  | nil => rfl
  | cons e rest ih => simp [jdepthEntries, jdepthList, ih]

theorem jdepthEntries_jsObjectEntries (xs : List JVal) :
    jdepthEntries (Validator.jsObjectEntries xs) = jdepthList xs := by
  unfold Validator.jsObjectEntries
  rw [jdepthEntries_map_snd, List.enum_map_snd]

theorem digitChar_mod10_isDigit (n : Nat) :
    (Nat.digitChar (n % 10)).isDigit = true := by
  have h : n % 10 < 10 := Nat.mod_lt _ (by omega)
  set m := n % 10 with hm
  interval_cases m <;> decide

theorem toDigitsCore_digits (fuel : Nat) :
    ∀ (n : Nat) (acc : List Char), (∀ c ∈ acc, c.isDigit = true) →
      ∀ c ∈ Nat.toDigitsCore 10 fuel n acc, c.isDigit = true := by
  induction fuel with
  | zero =>
      intro n acc hacc c hc
      exact hacc c hc
  | succ f ih =>
      intro n acc hacc c hc
      simp only [Nat.toDigitsCore] at hc
      by_cases hz : n / 10 = 0
      · rw [if_pos hz] at hc
        rcases List.mem_cons.mp hc with rfl | hm
        · exact digitChar_mod10_isDigit n
        · exact hacc c hm
      · rw [if_neg hz] at hc
        refine ih (n / 10) _ ?_ c hc
        intro c' hc'
        rcases List.mem_cons.mp hc' with rfl | hm
        · exact digitChar_mod10_isDigit n
        · exact hacc c' hm

theorem natToString_all_digits (n : Nat) :
    ∀ c ∈ (toString n).data, c.isDigit = true := by
  intro c hc
  have : (toString n).data = Nat.toDigits 10 n := rfl
  rw [this] at hc
  exact toDigitsCore_digits (n + 1) n [] (by intro c hc; cases hc) c hc

theorem natToString_not_logical (n : Nat) :
    toString n ∉ (["AND", "OR", "NOT"] : List String) := by
  intro hmem
  have hd := natToString_all_digits n
  simp only [List.mem_cons, List.not_mem_nil, or_false] at hmem
  rcases hmem with h | h | h
  · rw [h] at hd
    exact absurd (hd 'A' (by decide)) (by decide)
  · rw [h] at hd
    exact absurd (hd 'O' (by decide)) (by decide)
  · rw [h] at hd
    exact absurd (hd 'N' (by decide)) (by decide)

theorem noLogicalEntries_jsObjectEntries (xs : List JVal)
    (h : noLogicalList xs = true) :
    noLogicalEntries (Validator.jsObjectEntries xs) = true := by
  unfold Validator.jsObjectEntries
  have hgen : ∀ (l : List (Nat × JVal)), noLogicalList (l.map Prod.snd) = true →
      noLogicalEntries (l.map (fun e => (toString e.1, e.2))) = true := by
    intro l
    induction l with
    | nil => intro _; rfl
    | cons e rest ih =>
        intro hl
        simp only [List.map_cons, noLogicalList, Bool.and_eq_true] at hl
        simp only [List.map_cons, noLogicalEntries, Bool.and_eq_true]
        exact ⟨⟨decide_eq_true (natToString_not_logical e.1), hl.1⟩,
          ih hl.2⟩
  have hxs : xs.enum.map Prod.snd = xs := List.enum_map_snd xs
  exact hgen xs.enum (by rw [hxs]; exact h)

theorem arrayError_key_ne_depthError (cfg : ValidationConfig) (k : String) :
    Validator.arrayError cfg ("filters." ++ k) ≠ Validator.depthError cfg := by
  intro h
  have hmsg := congrArg GQPError.message h
  have h7 : (some '.' : Option Char) = some ' ' :=
    congrArg (fun s => s.data.get? 7) hmsg
  exact absurd (Option.some.inj h7) (by decide)

theorem arrayError_op_ne_depthError (cfg : ValidationConfig)
    (p op : String) :
    Validator.arrayError cfg ("filters." ++ p ++ "." ++ op) ≠
      Validator.depthError cfg := by
  intro h
  have hmsg := congrArg GQPError.message h
  have h7 : (some '.' : Option Char) = some ' ' :=
    congrArg (fun s => s.data.get? 7) hmsg
  exact absurd (Option.some.inj h7) (by decide)

theorem mustBeObject_ne_depthError (cfg : ValidationConfig) :
    createError.validation "filters" "must be an object" ≠
      Validator.depthError cfg := by
  intro h
  have hmsg := congrArg GQPError.message h
  have h8 : (some 'm' : Option Char) = some 'e' :=
    congrArg (fun s => s.data.get? 8) hmsg
  exact absurd (Option.some.inj h8) (by decide)

theorem except_bind_eq_error {α β : Type} (x : Except GQPError α)
    (f : α → Except GQPError β) (e : GQPError) (h : (x >>= f) = .error e) :
    x = .error e ∨ ∃ a, x = .ok a ∧ f a = .error e := by
  cases x with
  | error e' =>
      left
      simp only [bind, Except.bind] at h
      have he : e' = e := by injection h
      rw [he]
  | ok a =>
      right
      simp only [bind, Except.bind] at h
      exact ⟨a, rfl, h⟩

/-- Depth errors are only reachable when the tracked depth plus the
remaining structural nesting exceeds the configured bound: a depth error
from `validateFilters cfg v d` forces `maxFilterDepth < d + jdepth v`. -/
theorem validateFilters_depthError_bound (cfg : ValidationConfig) :
    ∀ (v : JVal) (d : Nat),
      Validator.validateFilters cfg v d = .error (Validator.depthError cfg) →
        cfg.maxFilterDepth < d + jdepth v := by
  refine Validator.validateFilters.induct cfg
    (fun v d => Validator.validateFilters cfg v d =
        .error (Validator.depthError cfg) →
      cfg.maxFilterDepth < d + jdepth v)
    (fun fs d => Validator.validateFiltersEntries cfg fs d =
        .error (Validator.depthError cfg) →
      cfg.maxFilterDepth < d + jdepthEntries fs)
    (fun p fs d => Validator.validateNestedFilter cfg p fs d =
        .error (Validator.depthError cfg) →
      cfg.maxFilterDepth < d + 1 + jdepthEntries fs)
    (fun xs d => Validator.validateFiltersList cfg xs d =
        .error (Validator.depthError cfg) →
      cfg.maxFilterDepth < d + 1 + jdepthList xs)
    ?_ ?_ ?_ ?_ ?_ ?_ ?_ ?_ ?_ ?_ ?_ ?_ ?_ ?_ ?_ ?_ ?_ ?_ ?_ ?_ ?_
  · intro d herr
    rw [Validator.validateFilters.eq_def] at herr
    exact Except.noConfusion herr
  · intro d fs hlt herr
    omega
  · intro d fs hlt ih herr
    rw [Validator.validateFilters.eq_def] at herr
    try dsimp only at herr
    rw [if_neg hlt] at herr
    have hv := ih herr
    simp only [jdepth]
    omega
  · intro v d hnn hno herr
    cases v with
    | null => exact absurd rfl (fun h => hnn h)
    | obj fs => exact absurd rfl (fun h => hno fs h)
    | bool b =>
        rw [Validator.validateFilters.eq_def] at herr
        try dsimp only at herr
        injection herr with h
        exact absurd h (mustBeObject_ne_depthError cfg)
    | num n =>
        rw [Validator.validateFilters.eq_def] at herr
        try dsimp only at herr
        injection herr with h
        exact absurd h (mustBeObject_ne_depthError cfg)
    | str st =>
        rw [Validator.validateFilters.eq_def] at herr
        try dsimp only at herr
        injection herr with h
        exact absurd h (mustBeObject_ne_depthError cfg)
    | arr xs =>
        rw [Validator.validateFilters.eq_def] at herr
        try dsimp only at herr
        injection herr with h
        exact absurd h (mustBeObject_ne_depthError cfg)
  · intro d herr
    rw [Validator.validateFiltersEntries.eq_def] at herr
    exact Except.noConfusion herr
  · intro d key value rest hcond ih herr
    rw [Validator.validateFiltersEntries.eq_def] at herr
    try dsimp only at herr
    rw [if_pos hcond] at herr
    have hv := ih herr
    have hle : jdepthEntries rest ≤ jdepthEntries ((key, value) :: rest) := by
      simp only [jdepthEntries]
      exact le_max_right _ _
    omega
  · intro d key rest hcond xs hlong herr
    rw [Validator.validateFiltersEntries.eq_def] at herr
    try dsimp only at herr
    rw [if_neg hcond] at herr
    try dsimp only at herr
    rw [if_pos hlong] at herr
    injection herr with h
    exact absurd h (arrayError_key_ne_depthError cfg key)
  · intro d key rest hcond xs hshort ih herr
    rw [Validator.validateFiltersEntries.eq_def] at herr
    try dsimp only at herr
    rw [if_neg hcond] at herr
    try dsimp only at herr
    rw [if_neg hshort] at herr
    rcases except_bind_eq_error _ _ _ herr with htail | ⟨a, _, hko⟩
    · have hv := ih htail
      have hle : jdepthEntries rest ≤
          jdepthEntries ((key, JVal.arr xs) :: rest) := by
        simp only [jdepthEntries]
        exact le_max_right _ _
      omega
    · exact Except.noConfusion hko
  · intro d key rest hcond sub ihn ih herr
    rw [Validator.validateFiltersEntries.eq_def] at herr
    try dsimp only at herr
    rw [if_neg hcond] at herr
    try dsimp only at herr
    rcases except_bind_eq_error _ _ _ herr with hnest | ⟨a, _, hrest2⟩
    · have hv := ihn hnest
      have hle : 1 + jdepthEntries sub ≤
          jdepthEntries ((key, JVal.obj sub) :: rest) := by
        simp only [jdepthEntries, jdepth]
        exact le_max_left _ _
      omega
    · rcases except_bind_eq_error _ _ _ hrest2 with htail | ⟨b, _, hko⟩
      · have hv := ih htail
        have hle : jdepthEntries rest ≤
            jdepthEntries ((key, JVal.obj sub) :: rest) := by
          simp only [jdepthEntries]
          exact le_max_right _ _
        omega
      · exact Except.noConfusion hko
  · intro d key rest hcond prim hnarr hnobj ih herr
    rw [Validator.validateFiltersEntries.eq_def] at herr
    try dsimp only at herr
    rw [if_neg hcond] at herr
    have hred : (match prim with
        | JVal.arr xs =>
            if cfg.maxArrayInFilter < xs.length then
              Except.error (Validator.arrayError cfg ("filters." ++ key))
            else do
              let tail ← Validator.validateFiltersEntries cfg rest d
              Except.ok ((key, JVal.arr xs) :: tail)
        | JVal.obj sub => do
            let v ← Validator.validateNestedFilter cfg key sub d
            let tail ← Validator.validateFiltersEntries cfg rest d
            Except.ok ((key, JVal.obj v) :: tail)
        | p => do
            let tail ← Validator.validateFiltersEntries cfg rest d
            Except.ok ((key, p) :: tail)) = (do
          let tail ← Validator.validateFiltersEntries cfg rest d
          Except.ok ((key, prim) :: tail)) := by
      cases prim with
      | arr xs => exact absurd rfl (fun h => hnarr xs h)
      | obj sub => exact absurd rfl (fun h => hnobj sub h)
      | null => rfl
      | bool b => rfl
      | num n => rfl
      | str st => rfl
    rw [hred] at herr
    rcases except_bind_eq_error _ _ _ herr with htail | ⟨a, _, hko⟩
    · have hv := ih htail
      have hle : jdepthEntries rest ≤ jdepthEntries ((key, prim) :: rest) := by
        simp only [jdepthEntries]
        exact le_max_right _ _
      omega
    · exact Except.noConfusion hko
  · intro p d herr
    rw [Validator.validateNestedFilter.eq_def] at herr
    exact Except.noConfusion herr
  · intro p d key rest hop xs hlong herr
    rw [Validator.validateNestedFilter.eq_def] at herr
    try dsimp only at herr
    rw [if_pos hop] at herr
    try dsimp only at herr
    rw [if_pos hlong] at herr
    injection herr with h
    exact absurd h (arrayError_op_ne_depthError cfg p key)
  · intro p d key rest hop xs hshort ih herr
    rw [Validator.validateNestedFilter.eq_def] at herr
    try dsimp only at herr
    rw [if_pos hop] at herr
    try dsimp only at herr
    rw [if_neg hshort] at herr
    rcases except_bind_eq_error _ _ _ herr with htail | ⟨a, _, hko⟩
    · have hv := ih htail
      have hle : jdepthEntries rest ≤
          jdepthEntries ((key, JVal.arr xs) :: rest) := by
        simp only [jdepthEntries]
        exact le_max_right _ _
      omega
    · exact Except.noConfusion hko
  · intro p d key rest hop v hnarr ih herr
    rw [Validator.validateNestedFilter.eq_def] at herr
    try dsimp only at herr
    rw [if_pos hop] at herr
    have hred : (match v with
        | JVal.arr xs =>
            if cfg.maxArrayInFilter < xs.length then
              Except.error (Validator.arrayError cfg
                ("filters." ++ p ++ "." ++ key))
            else do
              let tail ← Validator.validateNestedFilter cfg p rest d
              Except.ok ((key, JVal.arr xs) :: tail)
        | w => do
            let tail ← Validator.validateNestedFilter cfg p rest d
            Except.ok ((key, w) :: tail)) = (do
          let tail ← Validator.validateNestedFilter cfg p rest d
          Except.ok ((key, v) :: tail)) := by
      cases v with
      | arr xs => exact absurd rfl (fun h => hnarr xs h)
      | null => rfl
      | bool b => rfl
      | num n => rfl
      | str st => rfl
      | obj sub => rfl
    rw [hred] at herr
    rcases except_bind_eq_error _ _ _ herr with htail | ⟨a, _, hko⟩
    · have hv := ih htail
      have hle : jdepthEntries rest ≤ jdepthEntries ((key, v) :: rest) := by
        simp only [jdepthEntries]
        exact le_max_right _ _
      omega
    · exact Except.noConfusion hko
  · intro p d key rest hop hlog xs ihl ih herr
    rw [Validator.validateNestedFilter.eq_def] at herr
    try dsimp only at herr
    rw [if_neg hop, if_pos hlog] at herr
    try dsimp only at herr
    rcases except_bind_eq_error _ _ _ herr with hlist | ⟨a, _, hrest2⟩
    · have hv := ihl hlist
      have hle : 1 + jdepthList xs ≤
          jdepthEntries ((key, JVal.arr xs) :: rest) := by
        simp only [jdepthEntries, jdepth]
        exact le_max_left _ _
      omega
    · rcases except_bind_eq_error _ _ _ hrest2 with htail | ⟨b, _, hko⟩
      · have hv := ih htail
        have hle : jdepthEntries rest ≤
            jdepthEntries ((key, JVal.arr xs) :: rest) := by
          simp only [jdepthEntries]
          exact le_max_right _ _
        omega
      · exact Except.noConfusion hko
  · intro p d key rest hop hlog v hnarr ihv ih herr
    rw [Validator.validateNestedFilter.eq_def] at herr
    try dsimp only at herr
    rw [if_neg hop, if_pos hlog] at herr
    have hred : (match v with
        | JVal.arr xs => do
            let vs ← Validator.validateFiltersList cfg xs d
            let tail ← Validator.validateNestedFilter cfg p rest d
            Except.ok ((key, JVal.arr vs) :: tail)
        | w => do
            let v' ← Validator.validateFilters cfg w (d + 1)
            let tail ← Validator.validateNestedFilter cfg p rest d
            Except.ok ((key, JVal.obj v') :: tail)) = (do
          let v' ← Validator.validateFilters cfg v (d + 1)
          let tail ← Validator.validateNestedFilter cfg p rest d
          Except.ok ((key, JVal.obj v') :: tail)) := by
      cases v with
      | arr xs => exact absurd rfl (fun h => hnarr xs h)
      | null => rfl
      | bool b => rfl
      | num n => rfl
      | str st => rfl
      | obj sub => rfl
    rw [hred] at herr
    rcases except_bind_eq_error _ _ _ herr with hv | ⟨a, _, hrest2⟩
    · have hb := ihv hv
      have hle : jdepth v ≤ jdepthEntries ((key, v) :: rest) := by
        simp only [jdepthEntries]
        exact le_max_left _ _
      omega
    · rcases except_bind_eq_error _ _ _ hrest2 with htail | ⟨b, _, hko⟩
      · have hb := ih htail
        have hle : jdepthEntries rest ≤ jdepthEntries ((key, v) :: rest) := by
          simp only [jdepthEntries]
          exact le_max_right _ _
        omega
      · exact Except.noConfusion hko
  · intro p d key rest hop hlog sub ihn ih herr
    rw [Validator.validateNestedFilter.eq_def] at herr
    try dsimp only at herr
    rw [if_neg hop, if_neg hlog] at herr
    try dsimp only at herr
    rcases except_bind_eq_error _ _ _ herr with hnest | ⟨a, _, hrest2⟩
    · have hv := ihn hnest
      have hle : 1 + jdepthEntries sub ≤
          jdepthEntries ((key, JVal.obj sub) :: rest) := by
        simp only [jdepthEntries, jdepth]
        exact le_max_left _ _
      omega
    · rcases except_bind_eq_error _ _ _ hrest2 with htail | ⟨b, _, hko⟩
      · have hv := ih htail
        have hle : jdepthEntries rest ≤
            jdepthEntries ((key, JVal.obj sub) :: rest) := by
          simp only [jdepthEntries]
          exact le_max_right _ _
        omega
      · exact Except.noConfusion hko
  · intro p d key rest hop hlog xs ihn ih herr
    rw [Validator.validateNestedFilter.eq_def] at herr
    try dsimp only at herr
    rw [if_neg hop, if_neg hlog] at herr
    try dsimp only at herr
    rcases except_bind_eq_error _ _ _ herr with hnest | ⟨a, _, hrest2⟩
    · have hv := ihn hnest
      rw [jdepthEntries_jsObjectEntries] at hv
      have hle : 1 + jdepthList xs ≤
          jdepthEntries ((key, JVal.arr xs) :: rest) := by
        simp only [jdepthEntries, jdepth]
        exact le_max_left _ _
      omega
    · rcases except_bind_eq_error _ _ _ hrest2 with htail | ⟨b, _, hko⟩
      · have hv := ih htail
        have hle : jdepthEntries rest ≤
            jdepthEntries ((key, JVal.arr xs) :: rest) := by
          simp only [jdepthEntries]
          exact le_max_right _ _
        omega
      · exact Except.noConfusion hko
  · intro p d key rest hop hlog prim hnobj hnarr ih herr
    rw [Validator.validateNestedFilter.eq_def] at herr
    try dsimp only at herr
    rw [if_neg hop, if_neg hlog] at herr
    have hred : (match prim with
        | JVal.obj sub => do
            let v' ← Validator.validateNestedFilter cfg (p ++ "." ++ key) sub
              (d + 1)
            let tail ← Validator.validateNestedFilter cfg p rest d
            Except.ok ((key, JVal.obj v') :: tail)
        | JVal.arr xs => do
            let v' ← Validator.validateNestedFilter cfg (p ++ "." ++ key)
              (Validator.jsObjectEntries xs) (d + 1)
            let tail ← Validator.validateNestedFilter cfg p rest d
            Except.ok ((key, JVal.obj v') :: tail)
        | w => do
            let tail ← Validator.validateNestedFilter cfg p rest d
            Except.ok ((key, w) :: tail)) = (do
          let tail ← Validator.validateNestedFilter cfg p rest d
          Except.ok ((key, prim) :: tail)) := by
      cases prim with
      | obj sub => exact absurd rfl (fun h => hnobj sub h)
      | arr xs => exact absurd rfl (fun h => hnarr xs h)
      | null => rfl
      | bool b => rfl
      | num n => rfl
      | str st => rfl
    rw [hred] at herr
    rcases except_bind_eq_error _ _ _ herr with htail | ⟨a, _, hko⟩
    · have hv := ih htail
      have hle : jdepthEntries rest ≤ jdepthEntries ((key, prim) :: rest) := by
        simp only [jdepthEntries]
        exact le_max_right _ _
      omega
    · exact Except.noConfusion hko
  · intro d herr
    rw [Validator.validateFiltersList.eq_def] at herr
    exact Except.noConfusion herr
  · intro d v rest ihv ih herr
    rw [Validator.validateFiltersList.eq_def] at herr
    try dsimp only at herr
    rcases except_bind_eq_error _ _ _ herr with hv | ⟨a, _, hrest2⟩
    · have hb := ihv hv
      have hle : jdepth v ≤ jdepthList (v :: rest) := by
        simp only [jdepthList]
        exact le_max_left _ _
      omega
    · rcases except_bind_eq_error _ _ _ hrest2 with htail | ⟨b, _, hko⟩
      · have hb := ih htail
        have hle : jdepthList rest ≤ jdepthList (v :: rest) := by
          simp only [jdepthList]
          exact le_max_right _ _
        omega
      · exact Except.noConfusion hko

/-- Values free of AND/OR/NOT keys never produce a depth error: only the
logical branches of `validateNestedFilter` re-enter `validateFilters`
(where the only depth check lives). -/
theorem validateFilters_noLogical_no_depthError (cfg : ValidationConfig) :
    ∀ (v : JVal) (d : Nat), noLogical v = true →
      ¬ cfg.maxFilterDepth < d →
      Validator.validateFilters cfg v d ≠ .error (Validator.depthError cfg) := by
  refine Validator.validateFilters.induct cfg
    (fun v d => noLogical v = true → ¬ cfg.maxFilterDepth < d →
      Validator.validateFilters cfg v d ≠ .error (Validator.depthError cfg))
    (fun fs d => noLogicalEntries fs = true →
      Validator.validateFiltersEntries cfg fs d ≠
        .error (Validator.depthError cfg))
    (fun p fs d => noLogicalEntries fs = true →
      Validator.validateNestedFilter cfg p fs d ≠
        .error (Validator.depthError cfg))
    (fun _ _ => True)
    ?_ ?_ ?_ ?_ ?_ ?_ ?_ ?_ ?_ ?_ ?_ ?_ ?_ ?_ ?_ ?_ ?_ ?_ ?_ ?_ ?_
  · intro d _ _ herr
    rw [Validator.validateFilters.eq_def] at herr
    exact Except.noConfusion herr
  · intro d fs hlt _ hd _
    exact hd hlt
  · intro d fs hlt ih hno hd herr
    rw [Validator.validateFilters.eq_def] at herr
    try dsimp only at herr
    rw [if_neg hlt] at herr
    exact ih (by simpa [noLogical] using hno) herr
  · intro v d hnn hno _ _ herr
    cases v with
    | null => exact absurd rfl (fun h => hnn h)
    | obj fs => exact absurd rfl (fun h => hno fs h)
    | bool b =>
        rw [Validator.validateFilters.eq_def] at herr
        try dsimp only at herr
        injection herr with h
        exact absurd h (mustBeObject_ne_depthError cfg)
    | num n =>
        rw [Validator.validateFilters.eq_def] at herr
        try dsimp only at herr
        injection herr with h
        exact absurd h (mustBeObject_ne_depthError cfg)
    | str st =>
        rw [Validator.validateFilters.eq_def] at herr
        try dsimp only at herr
        injection herr with h
        exact absurd h (mustBeObject_ne_depthError cfg)
    | arr xs =>
        rw [Validator.validateFilters.eq_def] at herr
        try dsimp only at herr
        injection herr with h
        exact absurd h (mustBeObject_ne_depthError cfg)
  · intro d _ herr
    rw [Validator.validateFiltersEntries.eq_def] at herr
    exact Except.noConfusion herr
  · intro d key value rest hcond ih hno herr
    simp only [noLogicalEntries, Bool.and_eq_true] at hno
    rw [Validator.validateFiltersEntries.eq_def] at herr
    try dsimp only at herr
    rw [if_pos hcond] at herr
    exact ih hno.2 herr
  · intro d key rest hcond xs hlong hno herr
    rw [Validator.validateFiltersEntries.eq_def] at herr
    try dsimp only at herr
    rw [if_neg hcond] at herr
    try dsimp only at herr
    rw [if_pos hlong] at herr
    injection herr with h
    exact absurd h (arrayError_key_ne_depthError cfg key)
  · intro d key rest hcond xs hshort ih hno herr
    simp only [noLogicalEntries, Bool.and_eq_true] at hno
    rw [Validator.validateFiltersEntries.eq_def] at herr
    try dsimp only at herr
    rw [if_neg hcond] at herr
    try dsimp only at herr
    rw [if_neg hshort] at herr
    rcases except_bind_eq_error _ _ _ herr with htail | ⟨a, _, hko⟩
    · exact ih hno.2 htail
    · exact Except.noConfusion hko
  · intro d key rest hcond sub ihn ih hno herr
    simp only [noLogicalEntries, Bool.and_eq_true, noLogical] at hno
    rw [Validator.validateFiltersEntries.eq_def] at herr
    try dsimp only at herr
    rw [if_neg hcond] at herr
    try dsimp only at herr
    rcases except_bind_eq_error _ _ _ herr with hnest | ⟨a, _, hrest2⟩
    · exact ihn hno.1.2 hnest
    · rcases except_bind_eq_error _ _ _ hrest2 with htail | ⟨b, _, hko⟩
      · exact ih hno.2 htail
      · exact Except.noConfusion hko
  · intro d key rest hcond prim hnarr hnobj ih hno herr
    simp only [noLogicalEntries, Bool.and_eq_true] at hno
    rw [Validator.validateFiltersEntries.eq_def] at herr
    try dsimp only at herr
    rw [if_neg hcond] at herr
    have hred : (match prim with
        | JVal.arr xs =>
            if cfg.maxArrayInFilter < xs.length then
              Except.error (Validator.arrayError cfg ("filters." ++ key))
            else do
              let tail ← Validator.validateFiltersEntries cfg rest d
              Except.ok ((key, JVal.arr xs) :: tail)
        | JVal.obj sub => do
            let v ← Validator.validateNestedFilter cfg key sub d
            let tail ← Validator.validateFiltersEntries cfg rest d
            Except.ok ((key, JVal.obj v) :: tail)
        | p => do
            let tail ← Validator.validateFiltersEntries cfg rest d
            Except.ok ((key, p) :: tail)) = (do
          let tail ← Validator.validateFiltersEntries cfg rest d
          Except.ok ((key, prim) :: tail)) := by
      cases prim with
      | arr xs => exact absurd rfl (fun h => hnarr xs h)
      | obj sub => exact absurd rfl (fun h => hnobj sub h)
      | null => rfl
      | bool b => rfl
      | num n => rfl
      | str st => rfl
    rw [hred] at herr
    rcases except_bind_eq_error _ _ _ herr with htail | ⟨a, _, hko⟩
    · exact ih hno.2 htail
    · exact Except.noConfusion hko
  · intro p d _ herr
    rw [Validator.validateNestedFilter.eq_def] at herr
    exact Except.noConfusion herr
  · intro p d key rest hop xs hlong _ herr
    rw [Validator.validateNestedFilter.eq_def] at herr
    try dsimp only at herr
    rw [if_pos hop] at herr
    try dsimp only at herr
    rw [if_pos hlong] at herr
    injection herr with h
    exact absurd h (arrayError_op_ne_depthError cfg p key)
  · intro p d key rest hop xs hshort ih hno herr
    simp only [noLogicalEntries, Bool.and_eq_true] at hno
    rw [Validator.validateNestedFilter.eq_def] at herr
    try dsimp only at herr
    rw [if_pos hop] at herr
    try dsimp only at herr
    rw [if_neg hshort] at herr
    rcases except_bind_eq_error _ _ _ herr with htail | ⟨a, _, hko⟩
    · exact ih hno.2 htail
    · exact Except.noConfusion hko
  · intro p d key rest hop v hnarr ih hno herr
    simp only [noLogicalEntries, Bool.and_eq_true] at hno
    rw [Validator.validateNestedFilter.eq_def] at herr
    try dsimp only at herr
    rw [if_pos hop] at herr
    have hred : (match v with
        | JVal.arr xs =>
            if cfg.maxArrayInFilter < xs.length then
              Except.error (Validator.arrayError cfg
                ("filters." ++ p ++ "." ++ key))
            else do
              let tail ← Validator.validateNestedFilter cfg p rest d
              Except.ok ((key, JVal.arr xs) :: tail)
        | w => do
            let tail ← Validator.validateNestedFilter cfg p rest d
            Except.ok ((key, w) :: tail)) = (do
          let tail ← Validator.validateNestedFilter cfg p rest d
          Except.ok ((key, v) :: tail)) := by
      cases v with
      | arr xs => exact absurd rfl (fun h => hnarr xs h)
      | null => rfl
      | bool b => rfl
      | num n => rfl
      | str st => rfl
      | obj sub => rfl
    rw [hred] at herr
    rcases except_bind_eq_error _ _ _ herr with htail | ⟨a, _, hko⟩
    · exact ih hno.2 htail
    · exact Except.noConfusion hko
  · intro p d key rest hop hlog xs _ _ hno _
    simp only [noLogicalEntries, Bool.and_eq_true, decide_eq_true_eq] at hno
    exact absurd hlog hno.1.1
  · intro p d key rest hop hlog v hnarr _ _ hno _
    simp only [noLogicalEntries, Bool.and_eq_true, decide_eq_true_eq] at hno
    exact absurd hlog hno.1.1
  · intro p d key rest hop hlog sub ihn ih hno herr
    simp only [noLogicalEntries, Bool.and_eq_true, noLogical] at hno
    rw [Validator.validateNestedFilter.eq_def] at herr
    try dsimp only at herr
    rw [if_neg hop, if_neg hlog] at herr
    try dsimp only at herr
    rcases except_bind_eq_error _ _ _ herr with hnest | ⟨a, _, hrest2⟩
    · exact ihn hno.1.2 hnest
    · rcases except_bind_eq_error _ _ _ hrest2 with htail | ⟨b, _, hko⟩
      · exact ih hno.2 htail
      · exact Except.noConfusion hko
  · intro p d key rest hop hlog xs ihn ih hno herr
    simp only [noLogicalEntries, Bool.and_eq_true, noLogical] at hno
    rw [Validator.validateNestedFilter.eq_def] at herr
    try dsimp only at herr
    rw [if_neg hop, if_neg hlog] at herr
    try dsimp only at herr
    rcases except_bind_eq_error _ _ _ herr with hnest | ⟨a, _, hrest2⟩
    · exact ihn (noLogicalEntries_jsObjectEntries xs hno.1.2) hnest
    · rcases except_bind_eq_error _ _ _ hrest2 with htail | ⟨b, _, hko⟩
      · exact ih hno.2 htail
      · exact Except.noConfusion hko
  · intro p d key rest hop hlog prim hnobj hnarr ih hno herr
    simp only [noLogicalEntries, Bool.and_eq_true] at hno
    rw [Validator.validateNestedFilter.eq_def] at herr
    try dsimp only at herr
    rw [if_neg hop, if_neg hlog] at herr
    have hred : (match prim with
        | JVal.obj sub => do
            let v' ← Validator.validateNestedFilter cfg (p ++ "." ++ key) sub
              (d + 1)
            let tail ← Validator.validateNestedFilter cfg p rest d
            Except.ok ((key, JVal.obj v') :: tail)
        | JVal.arr xs => do
            let v' ← Validator.validateNestedFilter cfg (p ++ "." ++ key)
              (Validator.jsObjectEntries xs) (d + 1)
            let tail ← Validator.validateNestedFilter cfg p rest d
            Except.ok ((key, JVal.obj v') :: tail)
        | w => do
            let tail ← Validator.validateNestedFilter cfg p rest d
            Except.ok ((key, w) :: tail)) = (do
          let tail ← Validator.validateNestedFilter cfg p rest d
          Except.ok ((key, prim) :: tail)) := by
      cases prim with
      | obj sub => exact absurd rfl (fun h => hnobj sub h)
      | arr xs => exact absurd rfl (fun h => hnarr xs h)
      | null => rfl
      | bool b => rfl
      | num n => rfl
      | str st => rfl
    rw [hred] at herr
    rcases except_bind_eq_error _ _ _ herr with htail | ⟨a, _, hko⟩
    · exact ih hno.2 htail
    · exact Except.noConfusion hko
  · intro d
    exact trivial
  · intro d v rest _ _
    exact trivial

/-- One level of plain (non-operator, non-logical) object nesting. -/
def plainWrap (v : JVal) : JVal := .obj [("a", v)]

/-- A filters value whose objects nest 7 levels deep with no logical
operator anywhere: structurally deeper than the default bound of 5. -/
def plainDeep : JVal :=
  plainWrap (plainWrap (plainWrap (plainWrap (plainWrap (plainWrap
    (plainWrap (.num 1)))))))

/-- A raw tool call carrying `plainDeep` as its filters. -/
def plainDeepParams : JVal :=
  .obj [("action", .str "explore"), ("filters", plainDeep)]

/-- One level of logical nesting: `\x7b x: \x7b NOT: v \x7d \x7d`. Each layer makes
`validateNestedFilter` re-enter `validateFilters` at `depth + 1`. -/
def logicalWrap (v : JVal) : JVal := .obj [("x", .obj [("NOT", v)])]

/-- Six logical layers around an empty object: `validateFilters` is
re-entered at depth 6 > 5 and raises the depth error. -/
def deepLogical : JVal :=
  logicalWrap (logicalWrap (logicalWrap (logicalWrap (logicalWrap
    (logicalWrap (.obj []))))))

/-- C1 counterexample: `plainDeep` nests objects to structural depth 7,
strictly beyond the default `maxFilterDepth = 5`, contains no logical
operator, and yet `validateToolCallParams` accepts it: the depth counter
is only advanced and checked along `AND`/`OR`/`NOT` re-entries into
`validateFilters`, never for plain nested objects. -/
theorem validateFilters_plainDeep_counterexample :
    ({} : ValidationConfig).maxFilterDepth < jdepth plainDeep ∧
      noLogical plainDeep = true ∧
      ∃ r, Validator.validateToolCallParams {} {} plainDeepParams =
        .ok r := by
  refine ⟨?_, ?_, ?_⟩
  · simp +decide [jdepth, jdepthEntries, plainDeep, plainWrap]
  · simp +decide [noLogical, noLogicalEntries, plainDeep, plainWrap]
  · cases hres : Validator.validateToolCallParams {} {} plainDeepParams with
    | ok r => exact ⟨r, rfl⟩
    | error e =>
        exfalso
        revert hres
        simp +decide [Validator.validateToolCallParams, plainDeepParams,
          plainDeep, plainWrap, mapGet, Validator.validateAction,
          Validator.validateFilters, Validator.validateFiltersEntries,
          Validator.validateNestedFilter, Validator.validateCursorId,
          bind, Except.bind, pure, Except.pure, matchesIdentPattern,
          isIdentChar]

/-- C1 (amended): the depth error of `validateFilters` is raised only for
filters whose structural nesting exceeds `maxFilterDepth` AND which contain
at least one `AND`/`OR`/`NOT` key; plain object nesting of any depth never
raises it (so the claimed bound holds only along logical-operator chains,
as witnessed by a 6-deep `NOT` chain that does throw). -/
theorem validateFilters_depth_spec (cfg : ValidationConfig) (v : JVal)
    (herr : Validator.validateFilters cfg v 0 =
      .error (Validator.depthError cfg)) :
    cfg.maxFilterDepth < jdepth v ∧ noLogical v = false := by
  constructor
  · have h := validateFilters_depthError_bound cfg v 0 herr
    simpa using h
  · cases hnl : noLogical v with
    | false => rfl
    | true =>
        exact absurd herr
          (validateFilters_noLogical_no_depthError cfg v 0 hnl
            (Nat.not_lt_zero _))

/-- The amended C1 theorem applied to the concrete 6-deep logical chain:
it does raise the depth error, and the theorem concludes that its
structural depth exceeds the bound and it contains a logical operator. -/
theorem validateFilters_depth_spec_witness :
    ({} : ValidationConfig).maxFilterDepth < jdepth deepLogical ∧
      noLogical deepLogical = false :=
  validateFilters_depth_spec {} deepLogical (by
    simp +decide [deepLogical, logicalWrap, Validator.validateFilters,
      Validator.validateFiltersEntries, Validator.validateNestedFilter,
      Validator.depthError, bind, Except.bind, matchesIdentPattern,
      isIdentChar])

/-! ## C5 -/

theorem mapGet_mem {α : Type} {m : List (String × α)} {k : String} {v : α}
    (h : mapGet m k = some v) : (k, v) ∈ m := by
  induction m with
  | nil => exact Option.noConfusion h
  | cons e rest ih =>
      obtain ⟨k', v'⟩ := e
      simp only [mapGet] at h
      by_cases hk : k' = k
      · rw [if_pos hk] at h
        have hv : v' = v := Option.some.inj h
        exact List.mem_cons.mpr (Or.inl (by rw [hk, hv]))
      · rw [if_neg hk] at h
        exact List.mem_cons_of_mem _ (ih h)

theorem mapGet_of_mem_nodup {α : Type} {m : List (String × α)} {k : String}
    {v : α} (hnd : (m.map Prod.fst).Nodup) (h : (k, v) ∈ m) :
    mapGet m k = some v := by
  induction m with
  | nil => cases h
  | cons e rest ih =>
      obtain ⟨k', v'⟩ := e
      simp only [List.map_cons, List.nodup_cons] at hnd
      rcases List.mem_cons.mp h with heq | hmem
      · injection heq with hk hv
        simp [mapGet, hk, hv]
      · have hk : ¬ k' = k := by
          intro hkk
          exact hnd.1 (by rw [hkk]; exact List.mem_map.mpr ⟨(k, v), hmem, rfl⟩)
        simp only [mapGet, if_neg hk]
        exact ih hnd.2 hmem

/-- Invariants maintained by every schema built through `addNode`: unique
node keys, stored nodes named after their key, unique edge-index keys and
duplicate-free target sets (JS `Map`/`Set` semantics). -/
def Schema.Wf (s : Schema) : Prop :=
  (s.nodes.map Prod.fst).Nodup ∧
  (∀ kv ∈ s.nodes, (kv.2 : GQPNode).name = kv.1) ∧
  (s.edgeIndex.map Prod.fst).Nodup ∧
  (∀ kv ∈ s.edgeIndex, (kv.2 : List String).Nodup)

theorem getNode_name {s : Schema} (hwf : Schema.Wf s) {nm : String}
    {x : GQPNode} (h : s.getNode nm = some x) : x.name = nm := by
  unfold Schema.getNode at h
  exact hwf.2.1 (nm, x) (mapGet_mem h)

theorem getNode_self {s : Schema} (hwf : Schema.Wf s) {nm : String}
    {x : GQPNode} (h : s.getNode nm = some x) :
    s.getNode x.name = some x := by
  rw [getNode_name hwf h]
  exact h

theorem fwdLoop_append (s : Schema) (limit : Nat) :
    ∀ (ts : List String) (acc : List GQPNode), ∃ ext,
      Schema.fwdLoop s limit ts acc = acc ++ ext ∧
      ∀ x ∈ ext, ∃ t ∈ ts, s.getNode t = some x := by
  intro ts
  induction ts with
  | nil =>
      intro acc
      exact ⟨[], by simp [Schema.fwdLoop], by simp⟩
  | cons t ts ih =>
      intro acc
      by_cases hlim : limit ≤ acc.length
      · refine ⟨[], ?_, by simp⟩
        simp [Schema.fwdLoop, hlim]
      · cases hget : s.getNode t with
        | some node =>
            obtain ⟨ext, heq, hmem⟩ := ih (acc ++ [node])
            refine ⟨node :: ext, ?_, ?_⟩
            · simp only [Schema.fwdLoop, hlim, if_false, hget]
              rw [heq]
              simp
            · intro x hx
              rcases List.mem_cons.mp hx with rfl | hx'
              · exact ⟨t, List.mem_cons_self _ _, hget⟩
              · obtain ⟨t', ht', hg⟩ := hmem x hx'
                exact ⟨t', List.mem_cons_of_mem _ ht', hg⟩
        | none =>
            obtain ⟨ext, heq, hmem⟩ := ih acc
            refine ⟨ext, ?_, ?_⟩
            · simp only [Schema.fwdLoop, hlim, if_false, hget]
              exact heq
            · intro x hx
              obtain ⟨t', ht', hg⟩ := hmem x hx
              exact ⟨t', List.mem_cons_of_mem _ ht', hg⟩

theorem fwdLoop_nodup (s : Schema) (hwf : Schema.Wf s) (limit : Nat) :
    ∀ (ts : List String) (acc : List GQPNode), ts.Nodup →
      (acc.map GQPNode.name).Nodup →
      (∀ t ∈ ts, t ∉ acc.map GQPNode.name) →
      ((Schema.fwdLoop s limit ts acc).map GQPNode.name).Nodup := by
  intro ts
  induction ts with
  | nil =>
      intro acc _ hacc _
      simpa [Schema.fwdLoop] using hacc
  | cons t ts ih =>
      intro acc hnd hacc hdisj
      simp only [List.nodup_cons] at hnd
      by_cases hlim : limit ≤ acc.length
      · simpa [Schema.fwdLoop, hlim] using hacc
      · cases hget : s.getNode t with
        | some node =>
            have hname : node.name = t := getNode_name hwf hget
            have hstep : Schema.fwdLoop s limit (t :: ts) acc =
                Schema.fwdLoop s limit ts (acc ++ [node]) := by
              simp [Schema.fwdLoop, hlim, hget]
            rw [hstep]
            refine ih (acc ++ [node]) hnd.2 ?_ ?_
            · simp only [List.map_append, List.map_cons, List.map_nil,
                List.nodup_append]
              refine ⟨hacc, List.nodup_singleton _, ?_⟩
              intro a ha hb
              simp only [List.mem_cons, List.not_mem_nil, or_false] at hb
              rw [hb, hname] at ha
              exact hdisj t (List.mem_cons_self _ _) ha
            · intro t' ht'
              simp only [List.map_append, List.map_cons, List.map_nil,
                List.mem_append, List.mem_cons, List.not_mem_nil, or_false,
                hname]
              rintro (hin | heq)
              · exact hdisj t' (List.mem_cons_of_mem _ ht') hin
              · rw [heq] at ht'
                exact hnd.1 ht'
        | none =>
            have hstep : Schema.fwdLoop s limit (t :: ts) acc =
                Schema.fwdLoop s limit ts acc := by
              simp [Schema.fwdLoop, hlim, hget]
            rw [hstep]
            exact ih acc hnd.2 hacc
              (fun t' ht' => hdisj t' (List.mem_cons_of_mem _ ht'))

theorem fwdLoop_eq_filterMap (s : Schema) (limit : Nat) :
    ∀ (ts : List String) (acc : List GQPNode), acc.length ≤ limit →
      Schema.fwdLoop s limit ts acc =
        acc ++ ((ts.filterMap (fun t => s.getNode t)).take
          (limit - acc.length)) := by
  intro ts
  induction ts with
  | nil =>
      intro acc _
      simp [Schema.fwdLoop]
  | cons t ts ih =>
      intro acc hacc
      by_cases hlim : limit ≤ acc.length
      · have heq : limit = acc.length := le_antisymm hlim hacc
        have hzero : limit - acc.length = 0 := by omega
        rw [hzero]
        simp [Schema.fwdLoop, hlim]
      · cases hget : s.getNode t with
        | some node =>
            have hstep : Schema.fwdLoop s limit (t :: ts) acc =
                Schema.fwdLoop s limit ts (acc ++ [node]) := by
              simp [Schema.fwdLoop, hlim, hget]
            rw [hstep, ih (acc ++ [node]) (by
              simp only [List.length_append, List.length_cons,
                List.length_nil]
              omega)]
            have hpos : limit - acc.length = (limit - (acc ++ [node]).length) + 1 := by
              simp only [List.length_append, List.length_cons,
                List.length_nil]
              omega
            rw [hpos]
            simp only [List.filterMap_cons, hget, List.take_succ_cons,
              List.append_assoc, List.cons_append, List.nil_append]
        | none =>
            have hstep : Schema.fwdLoop s limit (t :: ts) acc =
                Schema.fwdLoop s limit ts acc := by
              simp [Schema.fwdLoop, hlim, hget]
            rw [hstep, ih acc hacc]
            simp only [List.filterMap_cons, hget]

theorem revLoop_append (s : Schema) (limit : Nat) (nm : String) :
    ∀ (ei : List (String × List String)) (acc : List GQPNode), ∃ ext,
      Schema.revLoop s limit nm ei acc = acc ++ ext ∧
      ∀ x ∈ ext, ∃ src targets, (src, targets) ∈ ei ∧ nm ∈ targets ∧
        src ≠ nm ∧ s.getNode src = some x := by
  intro ei
  induction ei with
  | nil =>
      intro acc
      exact ⟨[], by simp [Schema.revLoop], by simp⟩
  | cons e rest ih =>
      obtain ⟨src, targets⟩ := e
      intro acc
      by_cases hlim : limit ≤ acc.length
      · refine ⟨[], ?_, by simp⟩
        simp [Schema.revLoop, hlim]
      · by_cases hcond : nm ∈ targets ∧ src ≠ nm
        · cases hget : s.getNode src with
          | some node =>
              by_cases hin : node ∈ acc
              · obtain ⟨ext, heq, hmem⟩ := ih acc
                refine ⟨ext, ?_, ?_⟩
                · simp only [Schema.revLoop]
                  rw [if_neg hlim, if_pos hcond, hget]
                  dsimp only
                  rw [if_pos hin]
                  exact heq
                · intro x hx
                  obtain ⟨s', t', hm, h1, h2, h3⟩ := hmem x hx
                  exact ⟨s', t', List.mem_cons_of_mem _ hm, h1, h2, h3⟩
              · obtain ⟨ext, heq, hmem⟩ := ih (acc ++ [node])
                refine ⟨node :: ext, ?_, ?_⟩
                · simp only [Schema.revLoop]
                  rw [if_neg hlim, if_pos hcond, hget]
                  dsimp only
                  rw [if_neg hin, heq]
                  simp
                · intro x hx
                  rcases List.mem_cons.mp hx with rfl | hx'
                  · exact ⟨src, targets, List.mem_cons_self _ _,
                      hcond.1, hcond.2, hget⟩
                  · obtain ⟨s', t', hm, h1, h2, h3⟩ := hmem x hx'
                    exact ⟨s', t', List.mem_cons_of_mem _ hm, h1, h2, h3⟩
          | none =>
              obtain ⟨ext, heq, hmem⟩ := ih acc
              refine ⟨ext, ?_, ?_⟩
              · simp only [Schema.revLoop]
                rw [if_neg hlim, if_pos hcond, hget]
                exact heq
              · intro x hx
                obtain ⟨s', t', hm, h1, h2, h3⟩ := hmem x hx
                exact ⟨s', t', List.mem_cons_of_mem _ hm, h1, h2, h3⟩
        · obtain ⟨ext, heq, hmem⟩ := ih acc
          refine ⟨ext, ?_, ?_⟩
          · simp only [Schema.revLoop]
            rw [if_neg hlim, if_neg hcond]
            exact heq
          · intro x hx
            obtain ⟨s', t', hm, h1, h2, h3⟩ := hmem x hx
            exact ⟨s', t', List.mem_cons_of_mem _ hm, h1, h2, h3⟩

theorem revLoop_nodup (s : Schema) (hwf : Schema.Wf s) (limit : Nat)
    (nm : String) :
    ∀ (ei : List (String × List String)) (acc : List GQPNode),
      (∀ x ∈ acc, s.getNode x.name = some x) →
      (acc.map GQPNode.name).Nodup →
      ((Schema.revLoop s limit nm ei acc).map GQPNode.name).Nodup := by
  intro ei
  induction ei with
  | nil =>
      intro acc _ hacc
      simpa [Schema.revLoop] using hacc
  | cons e rest ih =>
      obtain ⟨src, targets⟩ := e
      intro acc hreg hacc
      by_cases hlim : limit ≤ acc.length
      · simpa [Schema.revLoop, hlim] using hacc
      · by_cases hcond : nm ∈ targets ∧ src ≠ nm
        · cases hget : s.getNode src with
          | some node =>
              by_cases hin : node ∈ acc
              · have hstep : Schema.revLoop s limit nm
                    ((src, targets) :: rest) acc =
                    Schema.revLoop s limit nm rest acc := by
                  simp only [Schema.revLoop]
                  rw [if_neg hlim, if_pos hcond, hget]
                  dsimp only
                  rw [if_pos hin]
                rw [hstep]
                exact ih acc hreg hacc
              · have hname : node.name = src := getNode_name hwf hget
                have hstep : Schema.revLoop s limit nm
                    ((src, targets) :: rest) acc =
                    Schema.revLoop s limit nm rest (acc ++ [node]) := by
                  simp only [Schema.revLoop]
                  rw [if_neg hlim, if_pos hcond, hget]
                  dsimp only
                  rw [if_neg hin]
                rw [hstep]
                refine ih (acc ++ [node]) ?_ ?_
                · intro x hx
                  rcases List.mem_append.mp hx with hxa | hxn
                  · exact hreg x hxa
                  · simp only [List.mem_cons, List.not_mem_nil,
                      or_false] at hxn
                    rw [hxn]
                    exact getNode_self hwf hget
                · simp only [List.map_append, List.map_cons, List.map_nil,
                    List.nodup_append]
                  refine ⟨hacc, List.nodup_singleton _, ?_⟩
                  intro a ha hb
                  simp only [List.mem_cons, List.not_mem_nil,
                    or_false] at hb
                  obtain ⟨x, hxa, hxn⟩ := List.mem_map.mp ha
                  have hxreg := hreg x hxa
                  rw [hxn, hb, hname, hget] at hxreg
                  rw [← Option.some.inj hxreg] at hxa
                  exact hin hxa
          | none =>
              have hstep : Schema.revLoop s limit nm
                  ((src, targets) :: rest) acc =
                  Schema.revLoop s limit nm rest acc := by
                simp only [Schema.revLoop]
                rw [if_neg hlim, if_pos hcond, hget]
              rw [hstep]
              exact ih acc hreg hacc
        · have hstep : Schema.revLoop s limit nm
              ((src, targets) :: rest) acc =
              Schema.revLoop s limit nm rest acc := by
            simp only [Schema.revLoop]
            rw [if_neg hlim, if_neg hcond]
          rw [hstep]
          exact ih acc hreg hacc

/-- A node carrying an edge to itself. -/
def exSelf : GQPNode :=
  { name := "A", edges := [{ name := "self", «to» := "A" }] }

/-- A schema holding only the self-looping node `A`. -/
def exSelfSchema : Schema := Schema.ofNodes [exSelf]

/-- C5 counterexample: with a self-edge `A -> A`, `getNeighbors "A"` returns
`A` itself — the `sourceNodeName !== nodeName` guard sits only in the
reverse-edge loop, while the forward loop pushes every registered edge
target, the queried node included. -/
theorem getNeighbors_self_counterexample :
    exSelf ∈ Schema.getNeighbors exSelfSchema "A" 5 ∧ exSelf.name = "A" := by
  constructor
  · simp +decide [Schema.getNeighbors, exSelfSchema, exSelf, Schema.ofNodes,
      Schema.addNode, Schema.indexEdge, Schema.getNode, Schema.fwdLoop,
      Schema.revLoop, mapGet, mapSet, setAdd]
  · rfl

/-- C5 (amended): for a well-formed schema and a registered node `n`,
`getNeighbors n limit` lists first the registered targets of `n`'s outgoing
edges in insertion order (cut at `limit`), followed by registered reverse
neighbors distinct from `n` (nodes with an edge targeting `n`); the output
has at most `limit` nodes, pairwise distinct by name, and the queried node
is excluded only when it is not among its own edge targets (a self-loop
puts `n` in its own neighbor list via the forward block). -/
theorem getNeighbors_spec (s : Schema) (n : String) (limit : Nat)
    (hwf : Schema.Wf s) :
    (∀ root, s.getNode n = some root → ∃ rev,
      Schema.getNeighbors s n limit =
        (((mapGet s.edgeIndex n).getD []).filterMap
          (fun t => s.getNode t)).take limit ++ rev ∧
      ∀ x ∈ rev, s.getNode x.name = some x ∧ x.name ≠ n ∧
        n ∈ (mapGet s.edgeIndex x.name).getD []) ∧
    (Schema.getNeighbors s n limit).length ≤ limit ∧
    ((Schema.getNeighbors s n limit).map GQPNode.name).Nodup ∧
    (∀ x ∈ Schema.getNeighbors s n limit,
      s.getNode x.name = some x ∧
      (x.name ∈ (mapGet s.edgeIndex n).getD [] ∨
        (x.name ≠ n ∧ n ∈ (mapGet s.edgeIndex x.name).getD []))) ∧
    (n ∉ (mapGet s.edgeIndex n).getD [] →
      ∀ x ∈ Schema.getNeighbors s n limit, x.name ≠ n) := by
  cases hroot : s.getNode n with
  | none =>
      have hnil : Schema.getNeighbors s n limit = [] := by
        unfold Schema.getNeighbors
        rw [hroot]
      rw [hnil]
      refine ⟨?_, by simp, by simp, by simp, by simp⟩
      intro root hroot'
      exact Option.noConfusion hroot'
  | some root =>
      have hgn : Schema.getNeighbors s n limit =
          (Schema.revLoop s limit n s.edgeIndex
            (Schema.fwdLoop s limit ((mapGet s.edgeIndex n).getD []) [])).take
            limit := by
        unfold Schema.getNeighbors
        rw [hroot]
      obtain ⟨fwdext, hfwd_eq, hfwd_mem⟩ :=
        fwdLoop_append s limit ((mapGet s.edgeIndex n).getD []) []
      obtain ⟨revext, hrev_eq, hrev_mem⟩ :=
        revLoop_append s limit n s.edgeIndex
          (Schema.fwdLoop s limit ((mapGet s.edgeIndex n).getD []) [])
      have hfreg : ∀ x ∈ Schema.fwdLoop s limit
          ((mapGet s.edgeIndex n).getD []) [],
          s.getNode x.name = some x := by
        intro x hx
        rw [hfwd_eq, List.nil_append] at hx
        obtain ⟨t, _, hg⟩ := hfwd_mem x hx
        exact getNode_self hwf hg
      have hets_nodup : ((mapGet s.edgeIndex n).getD []).Nodup := by
        cases hmg : mapGet s.edgeIndex n with
        | none => simp
        | some ts =>
            simp only [Option.getD_some]
            exact hwf.2.2.2 (n, ts) (mapGet_mem hmg)
      have hfwd_nodup : ((Schema.fwdLoop s limit
          ((mapGet s.edgeIndex n).getD []) []).map GQPNode.name).Nodup :=
        fwdLoop_nodup s hwf limit _ [] hets_nodup (by simp) (by simp)
      have hfull_nodup := revLoop_nodup s hwf limit n s.edgeIndex _
        hfreg hfwd_nodup
      have hchar : ∀ x ∈ Schema.revLoop s limit n s.edgeIndex
          (Schema.fwdLoop s limit ((mapGet s.edgeIndex n).getD []) []),
          s.getNode x.name = some x ∧
          (x.name ∈ (mapGet s.edgeIndex n).getD [] ∨
            (x.name ≠ n ∧ n ∈ (mapGet s.edgeIndex x.name).getD [])) := by
        intro x hx
        rw [hrev_eq] at hx
        rcases List.mem_append.mp hx with hxf | hxe
        · rw [hfwd_eq, List.nil_append] at hxf
          obtain ⟨t, ht, hg⟩ := hfwd_mem x hxf
          have hn := getNode_name hwf hg
          exact ⟨getNode_self hwf hg, Or.inl (by rw [hn]; exact ht)⟩
        · obtain ⟨src, targets, hmemei, hnm, hne, hg⟩ := hrev_mem x hxe
          have hname := getNode_name hwf hg
          have hmapg : mapGet s.edgeIndex src = some targets :=
            mapGet_of_mem_nodup hwf.2.2.1 hmemei
          refine ⟨getNode_self hwf hg,
            Or.inr ⟨by rw [hname]; exact hne, ?_⟩⟩
          rw [hname, hmapg]
          simpa using hnm
      refine ⟨?_, ?_, ?_, ?_, ?_⟩
      · intro root' hroot'
        have hfm : Schema.fwdLoop s limit
            ((mapGet s.edgeIndex n).getD []) [] =
            (((mapGet s.edgeIndex n).getD []).filterMap
              (fun t => s.getNode t)).take limit := by
          have h0 := fwdLoop_eq_filterMap s limit
            ((mapGet s.edgeIndex n).getD []) [] (by simp)
          simpa using h0
        have hfwd_le : (Schema.fwdLoop s limit
            ((mapGet s.edgeIndex n).getD []) []).length ≤ limit := by
          rw [hfm]
          exact List.length_take_le _ _
        refine ⟨revext.take (limit - (Schema.fwdLoop s limit
          ((mapGet s.edgeIndex n).getD []) []).length), ?_, ?_⟩
        · rw [hgn, hrev_eq, List.take_append_eq_append_take,
            List.take_of_length_le hfwd_le, hfm]
        · intro x hx
          have hx' : x ∈ revext := (List.take_subset _ _) hx
          obtain ⟨src, targets, hmemei, hnm, hne, hg⟩ := hrev_mem x hx'
          have hname := getNode_name hwf hg
          have hmapg : mapGet s.edgeIndex src = some targets :=
            mapGet_of_mem_nodup hwf.2.2.1 hmemei
          refine ⟨getNode_self hwf hg, by rw [hname]; exact hne, ?_⟩
          rw [hname, hmapg]
          simpa using hnm
      · rw [hgn]
        simp [List.length_take]
      · rw [hgn, List.map_take]
        exact List.Nodup.sublist (List.take_sublist _ _) hfull_nodup
      · intro x hx
        rw [hgn] at hx
        exact hchar x ((List.take_sublist _ _).subset hx)
      · intro hnot x hx hxeq
        rw [hgn] at hx
        rcases (hchar x ((List.take_sublist _ _).subset hx)).2 with hl | hr
        · rw [hxeq] at hl
          exact hnot hl
        · exact hr.1 hxeq

/-- The amended C5 theorem at the spec's own example: `getNeighbors "Order" 5`
on the User/Order/Product schema is within the limit, duplicate-free, and
decomposes into Order's registered forward edge targets in insertion order
followed by reverse neighbors. -/
theorem getNeighbors_spec_witness :
    ((Schema.getNeighbors exSchema "Order" 5).length ≤ 5 ∧
      ((Schema.getNeighbors exSchema "Order" 5).map GQPNode.name).Nodup) ∧
    (∃ rev, Schema.getNeighbors exSchema "Order" 5 =
      (((mapGet exSchema.edgeIndex "Order").getD []).filterMap
        (fun t => exSchema.getNode t)).take 5 ++ rev ∧
      ∀ x ∈ rev, exSchema.getNode x.name = some x ∧ x.name ≠ "Order" ∧
        "Order" ∈ (mapGet exSchema.edgeIndex x.name).getD []) := by
  have h := getNeighbors_spec exSchema "Order" 5 (by unfold Schema.Wf; decide)
  exact ⟨⟨h.2.1, h.2.2.1⟩, h.1 exOrder (by decide)⟩

/-! ## C3 -/

/-- A directed path from `fr` to `tgt` along the adjacency index: a
non-empty node list starting at `fr`, ending at `tgt`, each step following
an indexed edge. -/
def pathFrom (ei : List (String × List String)) (fr tgt : String)
    (p : List String) : Prop :=
  p.head? = some fr ∧ p.getLast? = some tgt ∧
    List.Chain' (fun a b => b ∈ (mapGet ei a).getD []) p

theorem pathFrom_length_pos {ei : List (String × List String)}
    {fr tgt : String} {p : List String} (h : pathFrom ei fr tgt p) :
    0 < p.length := by
  cases p with
  | nil => exact absurd h.1 (by simp)
  | cons a r => simp

theorem pathFrom_two_le {ei : List (String × List String)}
    {fr tgt : String} {p : List String} (h : pathFrom ei fr tgt p)
    (hne : fr ≠ tgt) : 2 ≤ p.length := by
  rcases p with _ | ⟨a, _ | ⟨b, r⟩⟩
  · exact absurd h.1 (by simp)
  · exfalso
    obtain ⟨h1, h2, _⟩ := h
    simp only [List.head?_cons, Option.some.injEq] at h1
    simp only [List.getLast?_singleton, Option.some.injEq] at h2
    exact hne (by rw [← h1, h2])
  · simp

theorem exists_min_length_path {P : List String → Prop}
    (h : ∃ q, P q) : ∃ π, P π ∧ ∀ q, P q → π.length ≤ q.length := by
  by_contra hcon
  push_neg at hcon
  have hall : ∀ n, ∀ q, P q → n ≤ q.length := by
    intro n
    induction n with
    | zero => intro q _; omega
    | succ n ih =>
        intro q hq
        obtain ⟨r, hr, hlt⟩ := hcon q hq
        have := ih r hr
        omega
  obtain ⟨q, hq⟩ := h
  have := hall (q.length + 1) q hq
  omega

theorem getD_zero_of_head? {l : List String} {a : String}
    (h : l.head? = some a) : l.getD 0 "" = a := by
  cases l with
  | nil => exact Option.noConfusion h
  | cons x r =>
      simp only [List.head?_cons, Option.some.injEq] at h
      simpa using h

theorem getD_last_of_getLast? {l : List String} {a : String}
    (h : l.getLast? = some a) : l.getD (l.length - 1) "" = a := by
  cases hl : l with
  | nil => rw [hl] at h; exact Option.noConfusion h
  | cons x r =>
      rw [← hl]
      have hne : l ≠ [] := by rw [hl]; exact List.cons_ne_nil _ _
      have h1 : l.getLast hne = a := by
        rw [List.getLast?_eq_getLast l hne] at h
        exact Option.some.inj h
      rw [List.getD_eq_get _ _ (by
        have : 0 < l.length := by rw [hl]; simp
        omega)]
      rw [← h1, List.getLast_eq_get]

theorem chain_getD {R : String → String → Prop} {l : List String}
    (h : List.Chain' R l) (j : Nat) (hj : j + 1 < l.length) :
    R (l.getD j "") (l.getD (j + 1) "") := by
  rw [List.getD_eq_get _ _ (by omega), List.getD_eq_get _ _ hj]
  exact List.chain'_iff_get.mp h j (by omega)

theorem pathFrom_surgery {ei : List (String × List String)}
    {fr tgt : String} {π : List String} (hπ : pathFrom ei fr tgt π)
    {i j : Nat} (hij : i < j) (hj : j < π.length)
    (heq : π.getD i "" = π.getD j "") :
    pathFrom ei fr tgt (π.take (i + 1) ++ π.drop (j + 1)) := by
  obtain ⟨hhead, hlast, hchain⟩ := hπ
  have hπne : π ≠ [] := by
    intro h
    rw [h] at hj
    exact absurd hj (by simp)
  refine ⟨?_, ?_, ?_⟩
  · cases hp : π with
    | nil => exact absurd hp hπne
    | cons x r =>
        rw [hp] at hhead
        simp only [List.head?_cons, Option.some.injEq] at hhead
        simp [List.take_succ_cons, hhead]
  · by_cases hdrop : π.drop (j + 1) = []
    · rw [hdrop, List.append_nil]
      have hjlen : j = π.length - 1 := by
        have := List.length_drop (j + 1) π
        rw [hdrop] at this
        simp at this
        omega
      have htake_ne : π.take (i + 1) ≠ [] := by
        intro h
        have := List.length_take (i + 1) π
        rw [h] at this
        simp at this
        omega
      rw [List.getLast?_eq_getElem?]
      have hlen : (π.take (i + 1)).length = i + 1 := by
        rw [List.length_take]
        omega
      rw [hlen]
      simp only [Nat.add_sub_cancel]
      rw [List.getElem?_take]
      rw [if_pos (by omega)]
      have hgi : π[i]? = some (π.getD i "") := by
        rw [List.getD_eq_get _ _ (by omega)]
        exact List.getElem?_eq_getElem (by omega)
      rw [hgi, heq, hjlen, getD_last_of_getLast? hlast]
    · rw [List.getLast?_append_of_ne_nil _ hdrop]
      rw [List.getLast?_eq_getElem?] at hlast ⊢
      have hdl : (π.drop (j + 1)).length = π.length - (j + 1) :=
        List.length_drop _ _
      rw [hdl, List.getElem?_drop]
      have hdlen : 0 < π.length - (j + 1) := by
        by_contra h
        push_neg at h
        have : (π.drop (j + 1)).length = 0 := by omega
        exact hdrop (List.length_eq_zero.mp this)
      have harith : j + 1 + (π.length - (j + 1) - 1) = π.length - 1 := by
        omega
      rw [harith]
      exact hlast
  · rw [List.chain'_append]
    refine ⟨ List.Chain'.prefix hchain (List.take_prefix _ _),
      hchain.suffix (List.drop_suffix _ _), ?_⟩
    intro x hx y hy
    by_cases hdrop : π.drop (j + 1) = []
    · rw [hdrop] at hy
      exact absurd hy (by simp)
    · have hjlt : j + 1 < π.length := by
        by_contra h
        push_neg at h
        exact hdrop (List.drop_eq_nil_of_le h)
      have hxval : x = π.getD i "" := by
        rw [List.getLast?_eq_getElem?] at hx
        have hlen : (π.take (i + 1)).length = i + 1 := by
          rw [List.length_take]
          omega
        rw [hlen] at hx
        simp only [Nat.add_sub_cancel] at hx
        rw [List.getElem?_take, if_pos (by omega)] at hx
        rw [List.getElem?_eq_getElem (by omega : i < π.length)] at hx
        simp only [Option.mem_def, Option.some.injEq] at hx
        rw [← hx, List.getD_eq_get _ _ (by omega)]
        rfl
      have hyval : y = π.getD (j + 1) "" := by
        cases hd : π.drop (j + 1) with
        | nil => exact absurd hd hdrop
        | cons z r =>
            rw [hd] at hy
            simp only [List.head?_cons, Option.mem_def,
              Option.some.injEq] at hy
            have : π[j + 1]? = some z := by
              have := List.getElem?_drop π (j + 1) 0
              rw [hd] at this
              simpa using this.symm
            rw [List.getD_eq_get _ _ hjlt, ← hy]
            rw [List.getElem?_eq_getElem hjlt] at this
            exact (Option.some.inj this).symm
      rw [hxval, heq, hyval]
      exact chain_getD hchain j hjlt

theorem minimal_path_inj {ei : List (String × List String)}
    {fr tgt : String} {π : List String} (hπ : pathFrom ei fr tgt π)
    (hmin : ∀ q, pathFrom ei fr tgt q → π.length ≤ q.length) :
    ∀ i j, i < j → j < π.length → π.getD i "" ≠ π.getD j "" := by
  intro i j hij hj heq
  have hq := pathFrom_surgery hπ hij hj heq
  have hlen := hmin _ hq
  rw [List.length_append, List.length_take, List.length_drop] at hlen
  omega

theorem minimal_path_tgt {ei : List (String × List String)}
    {fr tgt : String} {π : List String} (hπ : pathFrom ei fr tgt π)
    (hmin : ∀ q, pathFrom ei fr tgt q → π.length ≤ q.length) :
    ∀ i, i + 1 < π.length → π.getD i "" ≠ tgt := by
  intro i hi heq
  have hlast : π.getD (π.length - 1) "" = tgt := getD_last_of_getLast? hπ.2.1
  exact minimal_path_inj hπ hmin i (π.length - 1) (by omega) (by omega)
    (heq.trans hlast.symm)

theorem bfs_nil (ei : List (String × List String)) (tgt : String)
    (maxDepth : Nat) (visited : List String) :
    Schema.bfs ei tgt maxDepth [] visited = none := by
  rw [Schema.bfs.eq_def]

theorem bfs_step_depthskip {ei : List (String × List String)} {tgt : String}
    {maxDepth : Nat} {n : String} {path : List String}
    {rest : List (String × List String)} {visited : List String}
    (h1 : maxDepth < path.length) :
    Schema.bfs ei tgt maxDepth ((n, path) :: rest) visited =
      Schema.bfs ei tgt maxDepth rest visited := by
  rw [Schema.bfs.eq_def]
  dsimp only
  rw [if_pos h1]

theorem bfs_step_visitedskip {ei : List (String × List String)}
    {tgt : String} {maxDepth : Nat} {n : String} {path : List String}
    {rest : List (String × List String)} {visited : List String}
    (h1 : ¬ maxDepth < path.length) (h2 : n ∈ visited) :
    Schema.bfs ei tgt maxDepth ((n, path) :: rest) visited =
      Schema.bfs ei tgt maxDepth rest visited := by
  rw [Schema.bfs.eq_def]
  dsimp only
  rw [if_neg h1, if_pos h2]

theorem bfs_step_found {ei : List (String × List String)} {tgt : String}
    {maxDepth : Nat} {n : String} {path : List String}
    {rest : List (String × List String)} {visited : List String}
    (h1 : ¬ maxDepth < path.length) (h2 : n ∉ visited)
    (h3 : tgt ∈ (mapGet ei n).getD []) :
    Schema.bfs ei tgt maxDepth ((n, path) :: rest) visited =
      some (path ++ [tgt]) := by
  rw [Schema.bfs.eq_def]
  dsimp only
  rw [if_neg h1, if_neg h2, if_pos h3]

theorem bfs_step_expand {ei : List (String × List String)} {tgt : String}
    {maxDepth : Nat} {n : String} {path : List String}
    {rest : List (String × List String)} {visited : List String}
    (h1 : ¬ maxDepth < path.length) (h2 : n ∉ visited)
    (h3 : tgt ∉ (mapGet ei n).getD []) :
    Schema.bfs ei tgt maxDepth ((n, path) :: rest) visited =
      Schema.bfs ei tgt maxDepth
        (rest ++ ((mapGet ei n).getD []).map (fun m => (m, path ++ [m])))
        (n :: visited) := by
  rw [Schema.bfs.eq_def]
  dsimp only
  rw [if_neg h1, if_neg h2, if_neg h3]

-- Extending a valid queue-entry path by one adjacent node.
theorem entry_extend {ei : List (String × List String)} {fr n m : String}
    {path : List String} (hh : path.head? = some fr)
    (hl : path.getLast? = some n)
    (hc : List.Chain' (fun a b => b ∈ (mapGet ei a).getD []) path)
    (hm : m ∈ (mapGet ei n).getD []) :
    (path ++ [m]).head? = some fr ∧ (path ++ [m]).getLast? = some m ∧
      List.Chain' (fun a b => b ∈ (mapGet ei a).getD []) (path ++ [m]) := by
  refine ⟨?_, ?_, ?_⟩
  · cases path with
    | nil => exact Option.noConfusion hh
    | cons x r =>
        simp only [List.head?_cons, Option.some.injEq] at hh
        simp [hh]
  · rw [List.getLast?_append_of_ne_nil _ (List.cons_ne_nil _ _)]
    rfl
  · rw [List.chain'_append]
    refine ⟨hc, List.chain'_singleton _, ?_⟩
    intro x hx y hy
    rw [hl] at hx
    simp only [Option.mem_def, Option.some.injEq] at hx
    simp only [List.head?_cons, Option.mem_def, Option.some.injEq] at hy
    rw [← hx, ← hy]
    exact hm

theorem bfs_sound (ei : List (String × List String)) (fr tgt : String)
    (maxDepth : Nat) :
    ∀ (queue : List (String × List String)) (visited : List String),
      (∀ e ∈ queue, (e.2 : List String).head? = some fr ∧
        (e.2 : List String).getLast? = some e.1 ∧
        List.Chain' (fun a b => b ∈ (mapGet ei a).getD []) e.2) →
      ∀ res, Schema.bfs ei tgt maxDepth queue visited = some res →
        pathFrom ei fr tgt res ∧ res.length ≤ maxDepth + 1 := by
  refine Schema.bfs.induct ei tgt maxDepth
    (fun queue visited =>
      (∀ e ∈ queue, (e.2 : List String).head? = some fr ∧
        (e.2 : List String).getLast? = some e.1 ∧
        List.Chain' (fun a b => b ∈ (mapGet ei a).getD []) e.2) →
      ∀ res, Schema.bfs ei tgt maxDepth queue visited = some res →
        pathFrom ei fr tgt res ∧ res.length ≤ maxDepth + 1)
    ?_ ?_ ?_ ?_ ?_
  · intro visited _ res hres
    rw [bfs_nil] at hres
    exact Option.noConfusion hres
  · intro n path rest visited h1 ih hq res hres
    rw [bfs_step_depthskip h1] at hres
    exact ih (fun e he => hq e (List.mem_cons_of_mem _ he)) res hres
  · intro n path rest visited h1 h2 ih hq res hres
    rw [bfs_step_visitedskip h1 h2] at hres
    exact ih (fun e he => hq e (List.mem_cons_of_mem _ he)) res hres
  · intro n path rest visited h1 h2 nb h3 hq res hres
    rw [bfs_step_found h1 h2 h3] at hres
    obtain ⟨hh, hl, hc⟩ := hq (n, path) (List.mem_cons_self _ _)
    obtain ⟨eh, el, ec⟩ := entry_extend hh hl hc h3
    have hres' : path ++ [tgt] = res := Option.some.inj hres
    refine ⟨⟨by rw [← hres']; exact eh, by rw [← hres']; exact el,
      by rw [← hres']; exact ec⟩, ?_⟩
    rw [← hres']
    simp only [List.length_append, List.length_cons, List.length_nil]
    omega
  · intro n path rest visited h1 h2 nb h3 ih hq res hres
    rw [bfs_step_expand h1 h2 h3] at hres
    refine ih ?_ res hres
    intro e he
    rcases List.mem_append.mp he with her | hen
    · exact hq e (List.mem_cons_of_mem _ her)
    · obtain ⟨m, hm, hme⟩ := List.mem_map.mp hen
      obtain ⟨hh, hl, hc⟩ := hq (n, path) (List.mem_cons_self _ _)
      obtain ⟨eh, el, ec⟩ := entry_extend hh hl hc hm
      rw [← hme]
      exact ⟨eh, el, ec⟩

/-- The BFS queue always consists of a block of paths of one length
followed by a block of paths one longer: the FIFO dequeues levels in
order. -/
def qsorted (queue : List (String × List String)) : Prop :=
  ∃ q₁ q₂ ℓ, queue = q₁ ++ q₂ ∧
    (∀ e ∈ q₁, (e.2 : List String).length = ℓ) ∧
    (∀ e ∈ q₂, (e.2 : List String).length = ℓ + 1)

theorem qsorted_head_min {n : String} {path : List String}
    {rest : List (String × List String)}
    (h : qsorted ((n, path) :: rest)) :
    ∀ e ∈ (n, path) :: rest, path.length ≤ (e.2 : List String).length := by
  obtain ⟨q₁, q₂, ℓ, heq, h1, h2⟩ := h
  cases q₁ with
  | nil =>
      simp only [List.nil_append] at heq
      rw [← heq] at h2
      intro e he
      have hp : path.length = ℓ + 1 := h2 (n, path) (List.mem_cons_self _ _)
      have he2 := h2 e he
      omega
  | cons f q₁' =>
      rw [List.cons_append] at heq
      injection heq with hf hrest
      have hp : path.length = ℓ := by
        have := h1 f (List.mem_cons_self _ _)
        rw [← hf] at this
        exact this
      intro e he
      rcases List.mem_cons.mp he with rfl | he'
      · exact le_refl _
      · rw [hrest] at he'
        rcases List.mem_append.mp he' with hq1 | hq2
        · have := h1 e (List.mem_cons_of_mem _ hq1)
          omega
        · have := h2 e hq2
          omega

theorem qsorted_tail {f : String × List String}
    {rest : List (String × List String)} (h : qsorted (f :: rest)) :
    qsorted rest := by
  obtain ⟨q₁, q₂, ℓ, heq, h1, h2⟩ := h
  cases q₁ with
  | nil =>
      simp only [List.nil_append] at heq
      refine ⟨rest, [], ℓ + 1, by simp, ?_, by simp⟩
      intro e he
      exact h2 e (by rw [← heq]; exact List.mem_cons_of_mem _ he)
  | cons g q₁' =>
      rw [List.cons_append] at heq
      injection heq with hg hrest
      exact ⟨q₁', q₂, ℓ, hrest,
        fun e he => h1 e (List.mem_cons_of_mem _ he), h2⟩

theorem qsorted_expand {n : String} {path : List String}
    {rest new : List (String × List String)}
    (h : qsorted ((n, path) :: rest))
    (hnew : ∀ e ∈ new, (e.2 : List String).length = path.length + 1) :
    qsorted (rest ++ new) := by
  obtain ⟨q₁, q₂, ℓ, heq, h1, h2⟩ := h
  cases q₁ with
  | nil =>
      simp only [List.nil_append] at heq
      have hp : path.length = ℓ + 1 :=
        h2 (n, path) (by rw [← heq]; exact List.mem_cons_self _ _)
      refine ⟨rest, new, ℓ + 1, rfl, ?_, ?_⟩
      · intro e he
        exact h2 e (by rw [← heq]; exact List.mem_cons_of_mem _ he)
      · intro e he
        rw [hnew e he, hp]
  | cons f q₁' =>
      rw [List.cons_append] at heq
      injection heq with hf hrest
      have hp : path.length = ℓ := by
        have := h1 f (List.mem_cons_self _ _)
        rw [← hf] at this
        exact this
      refine ⟨q₁', q₂ ++ new, ℓ, by rw [hrest, List.append_assoc], ?_, ?_⟩
      · intro e he
        exact h1 e (List.mem_cons_of_mem _ he)
      · intro e he
        rcases List.mem_append.mp he with hq2 | hn
        · exact h2 e hq2
        · rw [hnew e hn, hp]

/-- BFS completeness: with a minimal `fr`-to-`tgt` path `π` within the depth
bound, any queue/visited state that is level-sorted and still holds an
unvisited node of `π` with a short enough stored path is guaranteed to
return a path no longer than `π`. -/
theorem bfs_complete (ei : List (String × List String)) (fr tgt : String)
    (maxDepth : Nat) (π : List String)
    (hπ : pathFrom ei fr tgt π)
    (hmin : ∀ q, pathFrom ei fr tgt q → π.length ≤ q.length)
    (hd : π.length - 1 ≤ maxDepth) :
    ∀ (queue : List (String × List String)) (visited : List String),
      qsorted queue →
      (∃ k p, k + 1 < π.length ∧ (π.getD k "", p) ∈ queue ∧
        p.length ≤ k + 1 ∧
        ∀ j, k ≤ j → j + 1 < π.length → π.getD j "" ∉ visited) →
      ∃ res, Schema.bfs ei tgt maxDepth queue visited = some res ∧
        res.length ≤ π.length := by
  refine Schema.bfs.induct ei tgt maxDepth
    (fun queue visited =>
      qsorted queue →
      (∃ k p, k + 1 < π.length ∧ (π.getD k "", p) ∈ queue ∧
        p.length ≤ k + 1 ∧
        ∀ j, k ≤ j → j + 1 < π.length → π.getD j "" ∉ visited) →
      ∃ res, Schema.bfs ei tgt maxDepth queue visited = some res ∧
        res.length ≤ π.length)
    ?_ ?_ ?_ ?_ ?_
  · intro visited _ hwit
    obtain ⟨k, p, hk, hmem, _, _⟩ := hwit
    exact absurd hmem (List.not_mem_nil _)
  · intro n path rest visited h1 ih hsort hwit
    obtain ⟨k, p, hk, hmem, hlen, hunvis⟩ := hwit
    have hentry_rest : (π.getD k "", p) ∈ rest := by
      rcases List.mem_cons.mp hmem with heq | h
      · exfalso
        rw [Prod.mk.injEq] at heq
        obtain ⟨he1, he2⟩ := heq
        rw [he2] at hlen
        omega
      · exact h
    rw [bfs_step_depthskip h1]
    exact ih (qsorted_tail hsort) ⟨k, p, hk, hentry_rest, hlen, hunvis⟩
  · intro n path rest visited h1 h2 ih hsort hwit
    obtain ⟨k, p, hk, hmem, hlen, hunvis⟩ := hwit
    have hentry_rest : (π.getD k "", p) ∈ rest := by
      rcases List.mem_cons.mp hmem with heq | h
      · exfalso
        rw [Prod.mk.injEq] at heq
        obtain ⟨he1, he2⟩ := heq
        rw [← he1] at h2
        exact hunvis k (le_refl _) hk h2
      · exact h
    rw [bfs_step_visitedskip h1 h2]
    exact ih (qsorted_tail hsort) ⟨k, p, hk, hentry_rest, hlen, hunvis⟩
  · intro n path rest visited h1 h2 nb h3 hsort hwit
    obtain ⟨k, p, hk, hmem, hlen, hunvis⟩ := hwit
    have hpm : path.length ≤ p.length :=
      qsorted_head_min hsort (π.getD k "", p) hmem
    refine ⟨path ++ [tgt], bfs_step_found h1 h2 h3, ?_⟩
    simp only [List.length_append, List.length_cons, List.length_nil]
    omega
  · intro n path rest visited h1 h2 nb h3 ih hsort hwit
    obtain ⟨k, p, hk, hmem, hlen, hunvis⟩ := hwit
    have hpm : path.length ≤ p.length :=
      qsorted_head_min hsort (π.getD k "", p) hmem
    have hsort' : qsorted (rest ++ nb.map (fun m => (m, path ++ [m]))) := by
      refine qsorted_expand hsort ?_
      intro e he
      obtain ⟨m, _, hme⟩ := List.mem_map.mp he
      rw [← hme]
      simp
    rw [bfs_step_expand h1 h2 h3]
    by_cases hrebase : ∃ j, k ≤ j ∧ j + 1 < π.length ∧ π.getD j "" = n
    · obtain ⟨j, hkj, hj1, hjn⟩ := hrebase
      have hj2 : j + 2 < π.length := by
        by_contra hcon
        push_neg at hcon
        have hlast : π.getD (j + 1) "" = tgt := by
          have hl := getD_last_of_getLast? hπ.2.1
          have hlen2 : π.length - 1 = j + 1 := by omega
          rw [hlen2] at hl
          exact hl
        have hadj : π.getD (j + 1) "" ∈ (mapGet ei (π.getD j "")).getD [] :=
          chain_getD hπ.2.2 j hj1
        rw [hlast, hjn] at hadj
        exact h3 hadj
      have hnext_adj : π.getD (j + 1) "" ∈ (mapGet ei n).getD [] := by
        have hch := chain_getD hπ.2.2 j hj1
        rw [hjn] at hch
        exact hch
      refine ih hsort' ⟨j + 1, path ++ [π.getD (j + 1) ""], hj2, ?_, ?_, ?_⟩
      · exact List.mem_append_right _
          (List.mem_map.mpr ⟨π.getD (j + 1) "", hnext_adj, rfl⟩)
      · simp only [List.length_append, List.length_cons, List.length_nil]
        omega
      · intro j' hj' hj'1
        simp only [List.mem_cons, not_or]
        refine ⟨?_, hunvis j' (by omega) hj'1⟩
        rw [← hjn]
        exact Ne.symm (minimal_path_inj hπ hmin j j' (by omega) (by omega))
    · have hentry_rest : (π.getD k "", p) ∈ rest := by
        rcases List.mem_cons.mp hmem with heq | h
        · exfalso
          rw [Prod.mk.injEq] at heq
          obtain ⟨he1, he2⟩ := heq
          exact hrebase ⟨k, le_refl _, hk, he1⟩
        · exact h
      refine ih hsort' ⟨k, p, hk, List.mem_append_left _ hentry_rest,
        hlen, ?_⟩
      intro j hj hj1
      simp only [List.mem_cons, not_or]
      refine ⟨?_, hunvis j hj hj1⟩
      intro heq
      exact hrebase ⟨j, hj, hj1, heq⟩

/-- C3: `findPath` returns `[from]` when the endpoints coincide, `none` when
an endpoint is unregistered; any returned path is a directed path from
`from` to `to` along the edge index, within `maxDepth` hops, and shortest
by hop count; and `none` with registered endpoints means no path exists
within `maxDepth` hops. -/
theorem findPath_spec (s : Schema) (fr tgt : String) (maxDepth : Nat) :
    (fr = tgt → Schema.findPath s fr tgt maxDepth = some [fr]) ∧
    (fr ≠ tgt →
      (fr ∉ s.nodes.map Prod.fst ∨ tgt ∉ s.nodes.map Prod.fst) →
      Schema.findPath s fr tgt maxDepth = none) ∧
    (∀ p, Schema.findPath s fr tgt maxDepth = some p →
      pathFrom s.edgeIndex fr tgt p ∧ p.length ≤ maxDepth + 1 ∧
      ∀ q, pathFrom s.edgeIndex fr tgt q → p.length ≤ q.length) ∧
    (Schema.findPath s fr tgt maxDepth = none →
      fr ∈ s.nodes.map Prod.fst → tgt ∈ s.nodes.map Prod.fst →
      ∀ q, pathFrom s.edgeIndex fr tgt q → maxDepth + 1 < q.length) := by
  have hinit_valid : ∀ e ∈ ([(fr, [fr])] :
      List (String × List String)),
      (e.2 : List String).head? = some fr ∧
      (e.2 : List String).getLast? = some e.1 ∧
      List.Chain' (fun a b => b ∈ (mapGet s.edgeIndex a).getD []) e.2 := by
    intro e he
    simp only [List.mem_cons, List.not_mem_nil, or_false] at he
    rw [he]
    exact ⟨rfl, rfl, List.chain'_singleton _⟩
  have hinit_sorted : qsorted [(fr, [fr])] := by
    refine ⟨[(fr, [fr])], [], 1, by simp, ?_, by simp⟩
    intro e he
    simp only [List.mem_cons, List.not_mem_nil, or_false] at he
    rw [he]
    rfl
  refine ⟨?_, ?_, ?_, ?_⟩
  · intro h
    unfold Schema.findPath
    rw [if_pos h]
  · intro hne hunreg
    unfold Schema.findPath
    rw [if_neg hne, if_pos (by tauto)]
  · intro p hp
    by_cases hfr : fr = tgt
    · have hres : Schema.findPath s fr tgt maxDepth = some [fr] := by
        unfold Schema.findPath
        rw [if_pos hfr]
      rw [hres] at hp
      have hpe : [fr] = p := Option.some.inj hp
      subst hfr
      refine ⟨?_, ?_, ?_⟩
      · rw [← hpe]
        exact ⟨rfl, rfl, List.chain'_singleton _⟩
      · rw [← hpe]
        simp
      · intro q hq
        rw [← hpe]
        have := pathFrom_length_pos hq
        simp only [List.length_cons, List.length_nil]
        omega
    · by_cases hreg : fr ∉ s.nodes.map Prod.fst ∨ tgt ∉ s.nodes.map Prod.fst
      · exfalso
        have : Schema.findPath s fr tgt maxDepth = none := by
          unfold Schema.findPath
          rw [if_neg hfr, if_pos (by tauto)]
        rw [this] at hp
        exact Option.noConfusion hp
      · have hbfs : Schema.bfs s.edgeIndex tgt maxDepth [(fr, [fr])] [] =
            some p := by
          rw [← hp]
          unfold Schema.findPath
          rw [if_neg hfr, if_neg (by tauto)]
        have hsound := bfs_sound s.edgeIndex fr tgt maxDepth
          [(fr, [fr])] [] hinit_valid p hbfs
        refine ⟨hsound.1, hsound.2, ?_⟩
        intro q hq
        obtain ⟨π, hπ, hminπ⟩ :=
          exists_min_length_path (P := pathFrom s.edgeIndex fr tgt) ⟨q, hq⟩
        have hπp : π.length ≤ p.length := hminπ p hsound.1
        have hd : π.length - 1 ≤ maxDepth := by
          have := hsound.2
          omega
        have hπ2 : 2 ≤ π.length := pathFrom_two_le hπ hfr
        obtain ⟨res, hres, hresle⟩ := bfs_complete s.edgeIndex fr tgt
          maxDepth π hπ hminπ hd [(fr, [fr])] [] hinit_sorted
          ⟨0, [fr], by omega,
            by rw [getD_zero_of_head? hπ.1]; exact List.mem_cons_self _ _,
            by simp, by simp⟩
        rw [hbfs] at hres
        have : res = p := Option.some.inj hres.symm
        rw [this] at hresle
        exact le_trans hresle (hminπ q hq)
  · intro hnone hreg1 hreg2 q hq
    by_contra hcon
    push_neg at hcon
    have hfr : fr ≠ tgt := by
      intro h
      have : Schema.findPath s fr tgt maxDepth = some [fr] := by
        unfold Schema.findPath
        rw [if_pos h]
      rw [hnone] at this
      exact Option.noConfusion this
    have hbfs : Schema.bfs s.edgeIndex tgt maxDepth [(fr, [fr])] [] =
        none := by
      rw [← hnone]
      unfold Schema.findPath
      rw [if_neg hfr, if_neg (by simp [hreg1, hreg2])]
    obtain ⟨π, hπ, hminπ⟩ :=
      exists_min_length_path (P := pathFrom s.edgeIndex fr tgt) ⟨q, hq⟩
    have hd : π.length - 1 ≤ maxDepth := by
      have := hminπ q hq
      omega
    have hπ2 : 2 ≤ π.length := pathFrom_two_le hπ hfr
    obtain ⟨res, hres, _⟩ := bfs_complete s.edgeIndex fr tgt maxDepth π hπ
      hminπ hd [(fr, [fr])] [] hinit_sorted
      ⟨0, [fr], by omega,
        by rw [getD_zero_of_head? hπ.1]; exact List.mem_cons_self _ _,
        by simp, by simp⟩
    rw [hbfs] at hres
    exact Option.noConfusion hres

/-- The C3 theorem at the spec's own example: the returned
`User -> Order -> Product` path is a valid directed path within the hop
bound. -/
theorem findPath_spec_witness :
    pathFrom exSchema.edgeIndex "User" "Product"
      ["User", "Order", "Product"] ∧
      (["User", "Order", "Product"] : List String).length ≤ 4 + 1 := by
  have hcomp : Schema.findPath exSchema "User" "Product" 4 =
      some ["User", "Order", "Product"] := by
    simp +decide [Schema.findPath, Schema.bfs, exSchema, Schema.ofNodes,
      Schema.addNode, Schema.indexEdge, mapGet, mapSet, setAdd, exUser,
      exOrder, exProduct]
  have h := (findPath_spec exSchema "User" "Product" 4).2.2.1 _ hcomp
  exact ⟨h.1, h.2.1⟩

end GQP
